import Mathlib

/-!
Formal model of the InfoMining repository's crawl/curation core.

Python floats are modelled as exact rationals (`ℚ`) where the code only
performs field arithmetic, and as real numbers (`ℝ`) where it applies
transcendental functions (`0.5 ** x`).  Python `int` is modelled as `ℤ`,
`str` as `String` or `List Char`, `None`-able values as `Option`.
External collaborators (the `re` module, `math.log1p`, `datetime` parsing,
the network fetcher, `hashlib`, `ipaddress`/`unicodedata` validation inside
`urllib.parse`) are modelled as explicit function parameters.

The file is organised as: all definitions (the embedding of the source),
followed by all lemmas and theorems.
-/

namespace InfoMining

/-! # Definitions -/

/-! ## curate_results.py, `length_score` (lines 134-145)

```python
def length_score(n_chars, min_chars, max_chars):
    if n_chars is None or n_chars <= 0:
        return 0.0
    if n_chars < min_chars:
        return 0.2 * (n_chars / max(1, min_chars))
    if n_chars <= max_chars:
        return 1.0
    over = n_chars - max_chars
    return max(0.4, 1.0 / (1.0 + over / 100000))
```
-/

def length_score (n_chars : Option ℤ) (min_chars max_chars : ℤ) : ℚ :=
  match n_chars with
  | none => 0
  | some n =>
    if n ≤ 0 then 0
    else if n < min_chars then (1/5 : ℚ) * ((n : ℚ) / ((max 1 min_chars : ℤ) : ℚ))
    else if n ≤ max_chars then 1
    else max (2/5 : ℚ) (1 / (1 + ((n - max_chars : ℤ) : ℚ) / 100000))

/-! ## curate_results.py, `recency_score` (lines 115-132)

```python
def recency_score(fetched_at_iso, half_life_days=14, hard_days_cutoff=365):
    if not fetched_at_iso:
        return 0.2
    try:
        dt = datetime.fromisoformat(fetched_at_iso.replace("Z", "+00:00"))
    except Exception:
        return 0.2
    now = datetime.now(timezone.utc)
    days = max(0, (now - dt).days)
    s = 0.5 ** (days / max(1, half_life_days))
    if days > hard_days_cutoff:
        s *= 0.3
    return s
```

The `datetime` collaborator is modelled by `parseDays : String → Option ℤ`,
returning `(now - fromisoformat(s.replace("Z", "+00:00"))).days`, or `none`
when `fromisoformat` raises. -/

noncomputable def recency_score (parseDays : String → Option ℤ)
    (fetched_at_iso : Option String) (half_life_days hard_days_cutoff : ℤ) : ℝ :=
  match fetched_at_iso with
  | none => 1/5
  | some str =>
    if str = "" then 1/5
    else
      match parseDays str with
      | none => 1/5
      | some diff =>
        let days : ℤ := max 0 diff
        let s : ℝ := (1/2 : ℝ) ^ (((days : ℤ) : ℝ) / (((max 1 half_life_days : ℤ)) : ℝ))
        if hard_days_cutoff < days then s * (3/10) else s

/-- A concrete stand-in for the `datetime` collaborator, used by witnesses:
two parseable timestamps of age 0 and 14 days, everything else unparseable. -/
def parseDaysDemo : String → Option ℤ := fun s =>
  if s = "2025-10-12T00:00:00Z" then some 0
  else if s = "2025-09-28T00:00:00Z" then some 14
  else none

/-! ## curate_results.py, score fusion (line 229 of `main`)

```python
score = (w_keyword * ks) + (w_domain * ds) + (w_recency * rs) + (w_length * ls)
```
-/

def fuse_score (w_keyword w_domain w_recency w_length ks ds rs ls : ℚ) : ℚ :=
  (w_keyword * ks) + (w_domain * ds) + (w_recency * rs) + (w_length * ls)

/-! ## curate_results.py, `keyword_score` (lines 79-113)

```python
def keyword_score(text, include, exclude):
    if not text:
        return 0.0
    text_l = safe_lower(text)
    pos = 0
    for kw in include or []:
        if not kw:
            continue
        if kw.startswith("/") and kw.endswith("/"):
            try:
                hits = re.findall(kw[1:-1], text, flags=re.IGNORECASE)
                pos += len(hits)
            except re.error:
                pass
        else:
            pos += text_l.count(kw.lower())
    neg = 0
    for kw in exclude or []:
        ... same, accumulating into neg ...
    pos_part = math.log1p(pos) if pos > 0 else 0.0
    neg_part = 1.5 * math.log1p(neg) if neg > 0 else 0.0
    return max(0.0, pos_part - neg_part)
```

The `re` module is modelled by a compile function
`re : String → Option (String → ℕ)`: `none` when the pattern is rejected
with `re.error`, otherwise the number of `re.findall(pattern, text,
re.IGNORECASE)` matches.  `math.log1p` is modelled by `log1p : ℕ → ℚ`
(its arguments here are always machine ints). -/

/-- Worker for Python `str.count` with a non-empty needle: count
non-overlapping occurrences scanning left to right. -/
def countOccsAux (needle : List Char) : List Char → ℕ
  | [] => 0
  | c :: rest =>
    if needle.isPrefixOf (c :: rest) then
      countOccsAux needle (List.drop (needle.length - 1) rest) + 1
    else
      countOccsAux needle rest
termination_by l => l.length
decreasing_by
  · simp only [List.length_cons, List.length_drop]
    omega
  · simp only [List.length_cons]
    omega

/-- Python `hay.count(needle)`; an empty needle counts `len(hay) + 1`
occurrences, as in Python. -/
def pyCount (hay needle : List Char) : ℕ :=
  if needle = [] then hay.length + 1 else countOccsAux needle hay

/-- Python `str.lower`, modelled characterwise on its ASCII fragment. -/
def pyLower (s : String) : String := ⟨s.toList.map Char.toLower⟩

/-- Python `s.startswith(pre)`. -/
def pyStartsWith (s pre : String) : Bool := pre.toList.isPrefixOf s.toList

/-- Python `s.endswith(suf)`. -/
def pyEndsWith (s suf : String) : Bool := suf.toList.isSuffixOf s.toList

/-- Python `s[1:-1]`: the string without its first and last character. -/
def pyInner (s : String) : String := ⟨(s.toList.drop 1).dropLast⟩

/-- One iteration of the hit-counting loops of `keyword_score`: a falsy
pattern contributes nothing, a `/.../`-delimited pattern is compiled by the
`re` collaborator (an invalid pattern, `none`, is skipped), any other
pattern is counted case-insensitively as a literal substring of the
lowered text. -/
def patHits (re : String → Option (String → ℕ)) (text text_l : String)
    (kw : String) : ℕ :=
  if kw = "" then 0
  else if pyStartsWith kw "/" && pyEndsWith kw "/" then
    match re (pyInner kw) with
    | none => 0
    | some count => count text
  else pyCount text_l.toList (pyLower kw).toList

/-- Total number of hits of a pattern list in `text`. -/
def hitCount (re : String → Option (String → ℕ)) (text : String)
    (patterns : List String) : ℕ :=
  (patterns.map (patHits re text (pyLower text))).sum

def keyword_score (re : String → Option (String → ℕ)) (log1p : ℕ → ℚ)
    (text : String) (inc exc : List String) : ℚ :=
  if text = "" then 0
  else
    let pos := hitCount re text inc
    let neg := hitCount re text exc
    let pos_part : ℚ := if 0 < pos then log1p pos else 0
    let neg_part : ℚ := if 0 < neg then (3/2 : ℚ) * log1p neg else 0
    max 0 (pos_part - neg_part)

/-- Demo `re` collaborator knowing the single pattern `x*`, which matches
the empty string once at every position: `re.findall` returns
`len(text) + 1` matches on any text containing no `x`, in particular one
match on the empty text. -/
def reDemo : String → Option (String → ℕ) := fun p =>
  if p = "x*" then some (fun t => t.toList.length + 1) else none

/-- Demo `math.log1p` collaborator: any strictly monotone function vanishing
at 0 exhibits the behaviours proved here (`math.log1p(0) == 0.0` exactly). -/
def log1pDemo : ℕ → ℚ := fun n => (n : ℚ)

/-! ## curate_results.py, `main`, re-ranking and final ranking (lines 259-288)

```python
    llm_cfg = load_yaml(LLM_YAML, default={})
    if llm_cfg.get("llm_enabled", False):
        top_k = min(int(llm_cfg.get("top_k_for_llm", 60) or 60), len(scored))
        scored.sort(key=lambda x: x["score_raw"], reverse=True)
        head = scored[:top_k]
        tail = scored[top_k:]
        for h in head:
            bonus = min(0.1, math.log1p(h["chars"]) / 10000.0)
            h["score_llm"] = bonus
            h["score"] = h["score_raw"] + bonus
            h["reasons"].append("llm:bonus")
        for t in tail:
            t["score_llm"] = 0.0
            t["score"] = t["score_raw"]
        scored = head + tail
    else:
        for it in scored:
            it["score_llm"] = 0.0
            it["score"] = it["score_raw"]

    scored.sort(key=lambda x: x["score"], reverse=True)
    final_n = int(final_n) if ... else 40
    top = scored[:final_n]
```

`list.sort(key=k, reverse=True)` is a stable descending sort; a stable
sort's output is uniquely determined by its input, so it is modelled by
insertion sort under the relation `keyDesc k a b := k b ≤ k a`. -/

/-- A scored item as assembled by `main` (lines 243-253), restricted to the
fields the re-ranking stage reads or writes. -/
structure Scored where
  url : String
  score_raw : ℚ
  chars : ℕ
  reasons : List String
deriving DecidableEq

/-- A scored item after the re-ranking stage has filled in `score_llm` and
the final `score`. -/
structure Ranked where
  url : String
  score_raw : ℚ
  chars : ℕ
  reasons : List String
  score_llm : ℚ
  score : ℚ
deriving DecidableEq

/-- The descending-by-key comparison used by `sort(key=key, reverse=True)`. -/
def keyDesc (key : α → ℚ) (a b : α) : Prop := key b ≤ key a

instance (key : α → ℚ) : DecidableRel (keyDesc key) := fun a b =>
  inferInstanceAs (Decidable (key b ≤ key a))

instance (key : α → ℚ) : IsTotal α (keyDesc key) :=
  ⟨fun a b => le_total (key b) (key a)⟩

instance (key : α → ℚ) : IsTrans α (keyDesc key) :=
  ⟨fun _ _ _ h1 h2 => le_trans h2 h1⟩

/-- Python `l.sort(key=key, reverse=True)`: stable descending sort. -/
def pySortDesc (key : α → ℚ) (l : List α) : List α :=
  l.insertionSort (keyDesc key)

/-- The mutation applied to each of the top-K items (lines 270-274). -/
def applyBonus (log1p : ℕ → ℚ) (h : Scored) : Ranked :=
  let bonus := min (1/10 : ℚ) (log1p h.chars / 10000)
  ⟨h.url, h.score_raw, h.chars, h.reasons ++ ["llm:bonus"], bonus, h.score_raw + bonus⟩

/-- The mutation applied to tail items and, when the second stage is
disabled, to every item (lines 276-283). -/
def noBonus (t : Scored) : Ranked :=
  ⟨t.url, t.score_raw, t.chars, t.reasons, 0, t.score_raw⟩

/-- `scored.sort(key=score_raw, reverse=True)` — the provisional ranking. -/
def provSorted (scored : List Scored) : List Scored :=
  pySortDesc Scored.score_raw scored

/-- The enabled second-stage pass: provisional sort, bonus for the first
`min(top_k, len(scored))` items, recombination `head + tail`. -/
def rescoreK (log1p : ℕ → ℚ) (top_k : ℕ) (scored : List Scored) : List Ranked :=
  let K := min top_k scored.length
  ((provSorted scored).take K).map (applyBonus log1p)
    ++ ((provSorted scored).drop K).map (noBonus)

/-- Lines 259-288 end to end: optional second-stage re-score, final stable
descending sort by fused (post-bonus) score, truncation to `final_n`
(default 40). -/
def rankResults (log1p : ℕ → ℚ) (llm_enabled : Bool) (top_k final_n : ℕ)
    (scored : List Scored) : List Ranked :=
  let rescored :=
    if llm_enabled then rescoreK log1p top_k scored else scored.map noBonus
  (pySortDesc Ranked.score rescored).take final_n

/-- Five concrete scored items, mirroring the spec's top-K scenario with
`top_k_for_llm = 2`; the provisionally highest-scored item has empty
content (`chars = 0`, which really occurs: a page whose markdown is a pure
`<!-- ... -->` comment is scored with `n_chars = 0`). -/
def demoScored : List Scored :=
  [⟨"a", 2, 0, []⟩, ⟨"b", 1, 100, []⟩, ⟨"c", 3/4, 50, []⟩,
   ⟨"d", 1/2, 50, []⟩, ⟨"e", 1/4, 50, []⟩]

/-! ## crawl_extract.py: ledger, retries and orchestration

```python
def pick(d, *keys, default=None):
    for k in keys:
        if k in d and d[k]:
            return d[k]
    return default

def load_items(files):
    items = []
    for p in files:
        for rec in read_jsonl(p):
            url = pick(rec, "url", "link")
            title = pick(rec, "title", "htmlTitle")
            if not url:
                continue
            items.append(dict(url=url, title=title or "",
                              source_file=os.path.basename(p)))
    seen = set()
    deduped = []
    for it in items:
        if it["url"] in seen:
            continue
        seen.add(it["url"])
        deduped.append(it)
    return deduped
```
-/

/-- One parsed JSON record of an input data file, restricted to the keys
`load_items` reads; `none` models an absent key, `some ""` a present falsy
value. -/
structure RawRec where
  url : Option String
  link : Option String
  title : Option String
  htmlTitle : Option String

/-- A present, truthy (non-empty) value. -/
def truthy (a : Option String) : Option String :=
  match a with
  | some s => if s = "" then none else some s
  | none => none

/-- `pick(d, k1, k2)`: the first present truthy value, else `None`. -/
def pick2 (a b : Option String) : Option String :=
  match truthy a with
  | some s => some s
  | none => truthy b

/-- A normalized candidate item. -/
structure Item where
  url : String
  title : String
  source_file : String
deriving DecidableEq

/-- The normalization loop of `load_items` over `(basename, records)`
input files, before de-duplication. -/
def normItems (files : List (String × List RawRec)) : List Item :=
  files.flatMap (fun f => f.2.filterMap (fun r =>
    match pick2 r.url r.link with
    | none => none
    | some u => some ⟨u, (pick2 r.title r.htmlTitle).getD "", f.1⟩))

/-- The de-duplication loop of `load_items`: keep the first item per exact
URL. -/
def dedupByUrl : List Item → List String → List Item
  | [], _ => []
  | it :: rest, seen =>
    if it.url ∈ seen then dedupByUrl rest seen
    else it :: dedupByUrl rest (it.url :: seen)

def load_items (files : List (String × List RawRec)) : List Item :=
  dedupByUrl (normItems files) []

/-- One FetchRecord: a line of the append-only contents.jsonl ledger
(the `out` dict of `fetch_one`, lines 86-95). -/
structure FetchRec where
  url : String
  title : String
  source_file : Option String
  fetched_at : String
  ok : Bool
  error : Option String
  markdown_path : Option String
  markdown_chars : ℕ
deriving DecidableEq

/-- Outcome of one `crawler.arun` call: an exception with its formatted
message `f"TypeName: e"`, or a result whose `.markdown` may be `None`. -/
inductive FetchOutcome where
  | err (msg : String)
  | page (markdown : Option String)

/-- Python `str.strip()`, modelled on its ASCII-whitespace fragment. -/
def pyStrip (s : String) : String :=
  ⟨((s.toList.dropWhile Char.isWhitespace).reverse.dropWhile
      Char.isWhitespace).reverse⟩

/-- `md = (result.markdown or "").strip()` plus the empty-markdown check of
fetch_one (lines 105-108): `.ok` carries the stripped markdown of a
successful attempt, `.error` the formatted reason of a failing one. -/
def attemptResult (o : FetchOutcome) : Except String String :=
  match o with
  | .err m => .error m
  | .page md =>
    let s := pyStrip (md.getD "")
    if s = "" then .error "RuntimeError: Empty markdown" else .ok s

/-- The `while attempt <= retries` loop of `fetch_one` (lines 96-127).
`out k` is the result of the `k`-th `crawler.arun` call (0-based);
the loop is entered with `attempt = 0` and `fuel = retries + 1`, so the
`fuel = 0` base case (the loop guard failing) is never reached.  Returns
the final outcome, the number of attempts made, and the list of backoff
delays slept (in seconds, in order): `min(2 ** attempt, 5)` after the
failure of each non-final attempt. -/
def fetchLoop (out : ℕ → Except String String) (attempt : ℕ) :
    (fuel : ℕ) → Except String String × ℕ × List ℕ
  | 0 => (.error "", attempt, [])
  | fuel + 1 =>
    match out attempt with
    | .ok md => (.ok md, attempt + 1, [])
    | .error reason =>
      if fuel = 0 then (.error reason, attempt + 1, [])
      else
        let r := fetchLoop out (attempt + 1) fuel
        (r.1, r.2.1, min (2 ^ (attempt + 1)) 5 :: r.2.2)

/-- The record produced by one `fetch_one` call, together with the
attempt count and the backoff delays (the observable retry behaviour). -/
structure FetchResult where
  record : FetchRec
  attempts : ℕ
  delays : List ℕ

/-- `fetch_one` (lines 80-127).  `env url k` is the outcome of the `k`-th
`crawler.arun(url=url, timeout=timeout)` call; `sha` models
`hashlib.sha1(url).hexdigest()`. -/
def fetch_one (env : String → ℕ → FetchOutcome) (sha : String → String)
    (fetched_at : String) (retries : ℕ) (it : Item) : FetchResult :=
  let r := fetchLoop (fun k => attemptResult (env it.url k)) 0 (retries + 1)
  match r.1 with
  | .ok md =>
    ⟨⟨it.url, it.title, some it.source_file, fetched_at, true, none,
        some ("app/crawl_result/pages/" ++ sha it.url ++ ".md"),
        md.toList.length⟩,
      r.2.1, r.2.2⟩
  | .error reason =>
    ⟨⟨it.url, it.title, some it.source_file, fetched_at, false, some reason,
        none, 0⟩,
      r.2.1, r.2.2⟩

/-- The `done_ok` set replayed from the ledger (run_crawl lines 137-142):
URLs of records with truthy `ok` and truthy `url`. -/
def done_ok (ledger : List FetchRec) : List String :=
  (ledger.filter (fun r => r.ok && !(r.url == ""))).map FetchRec.url

/-- `pending = [it for it in items if it["url"] not in done_ok]` (line 144). -/
def pendingOf (items : List Item) (ledger : List FetchRec) : List Item :=
  items.filter (fun it => !((done_ok ledger).contains it.url))

/-- `run_crawl` (lines 130-171): load and dedup candidates, skip URLs
already fetched OK, fetch every pending URL with `retries = 2`, append one
record per pending URL to the ledger.  `asyncio.as_completed` makes the
append order nondeterministic; it is modelled as the pending order (all
properties proved below are order-insensitive). -/
def run_crawl (env : String → ℕ → FetchOutcome) (sha : String → String)
    (fetched_at : String) (files : List (String × List RawRec))
    (ledger : List FetchRec) : List FetchRec :=
  let items := load_items files
  if items = [] then ledger
  else
    let pending := pendingOf items ledger
    if pending = [] then ledger
    else ledger ++ pending.map (fun it => (fetch_one env sha fetched_at 2 it).record)

/-- Number of `ok=true` records for `u` in the ledger. -/
def okCount (ledger : List FetchRec) (u : String) : ℕ :=
  (ledger.filter (fun r => r.ok && r.url == u)).length

/-- A concrete fetch environment for witnesses: `http://bad` raises a
timeout on every attempt, everything else returns markdown. -/
def envDemo : String → ℕ → FetchOutcome := fun url k =>
  if url = "http://bad" then .err ("TimeoutError: attempt " ++ toString k)
  else .page (some "some content")

/-- A concrete stand-in for `hashlib.sha1(...).hexdigest()`. -/
def shaDemo : String → String := fun s => s

/-- Concrete input files for witnesses: one duplicate URL, one record
without a URL, two distinct URLs. -/
def filesDemo : List (String × List RawRec) :=
  [("google_data.jsonl",
    [⟨some "http://a", none, some "A", none⟩,
     ⟨none, some "http://a", none, some "A again"⟩,
     ⟨none, none, some "no url", none⟩]),
   ("rss_data.jsonl", [⟨some "http://bad", none, some "B", none⟩])]

/-- A concrete starting ledger for witnesses: `http://a` already fetched
successfully. -/
def ledgerDemo : List FetchRec :=
  [⟨"http://a", "A", some "google_data.jsonl", "t0", true, none,
    some "app/crawl_result/pages/x.md", 5⟩]

/-! ## crawl_and_rank.py, `canon` (lines 23-25) and its `urllib.parse`
collaborator

```python
def canon(url: str) -> str:
    u = urlparse(url)
    return urlunparse((u.scheme, u.netloc.lower(), u.path.rstrip("/"), "", "", ""))
```

`urlparse`/`urlunparse` are CPython 3.11 `Lib/urllib/parse.py`, embedded
below on `List Char`, specialised to `canon`'s use (default `scheme=''`,
`allow_fragments=True`; params, query and fragment are discarded by
`canon`, so only their splitting effect on the path is kept):

`urlsplit`:
- lstrip the WHATWG C0-control-or-space characters, then remove every
  tab, CR and LF;
- a scheme is split off at the first `:` when it is at a positive index,
  the first character is an ASCII letter and everything before the `:` is
  in `scheme_chars`; the scheme is lower-cased;
- when the rest starts with `//`, the netloc runs to the next `/`, `?` or
  `#`; mismatched `[`/`]` raise `ValueError("Invalid IPv6 URL")`; a
  bracketed host is validated through `ipaddress` (modelled by the
  `bracketedHostOK` oracle, raising on failure);
- the fragment (`#...`) and then the query (`?...`) are split off;
- `_checknetloc` raises for non-ASCII netlocs whose NFKC normalization
  introduces a delimiter (modelled by the `nonAsciiNetlocOK` oracle; an
  ASCII netloc always passes).

`urlparse` additionally splits `;params` off the last path segment when
the scheme is in `uses_params`.

`urlunsplit((scheme, netloc, path, "", ""))`:
- if the netloc is non-empty, or the scheme is truthy, in `uses_netloc`
  and the path does not start with `//`: prefix the path with `/` when it
  is non-empty and does not start with one, then prepend `//` + netloc;
- if the scheme is truthy, prepend `scheme:`. -/

/-- C0 controls and space (`_WHATWG_C0_CONTROL_OR_SPACE`). -/
def isC0OrSpace (c : Char) : Bool := c.toNat ≤ 32

/-- `_UNSAFE_URL_BYTES_TO_REMOVE`: tab, CR, LF. -/
def isUnsafeURLChar (c : Char) : Bool := c == '\t' || c == '\r' || c == '\n'

/-- The sanitisation `urlsplit` applies before parsing. -/
def pyCleanUrl (u : List Char) : List Char :=
  (u.dropWhile isC0OrSpace).filter (fun c => !(isUnsafeURLChar c))

/-- `scheme_chars`: ASCII letters, digits, `+`, `-`, `.`. -/
def isSchemeChar (c : Char) : Bool :=
  c.isAlpha || c.isDigit || c == '+' || c == '-' || c == '.'

/-- Scheme detection of `urlsplit` (`i = url.find(':')`; split when `i > 0`,
`url[0]` is an ASCII letter, and `url[:i] ⊆ scheme_chars`). -/
def splitScheme (u : List Char) : List Char × List Char :=
  match u.findIdx? (· = ':') with
  | none => ([], u)
  | some i =>
    if 0 < i ∧ (u.headD ' ').isAlpha ∧ (u.take i).all isSchemeChar then
      ((u.take i).map Char.toLower, u.drop (i + 1))
    else ([], u)

def isNetlocDelim (c : Char) : Bool := c == '/' || c == '?' || c == '#'

/-- `_splitnetloc(url, 2)` guarded by `url[:2] == '//'`. -/
def splitNetloc (u : List Char) : List Char × List Char :=
  if u.take 2 = ['/', '/'] then
    ((u.drop 2).takeWhile (fun c => !(isNetlocDelim c)),
     (u.drop 2).dropWhile (fun c => !(isNetlocDelim c)))
  else ([], u)

/-- `netloc.partition('[')[2].partition(']')[0]`. -/
def bracketedHost (n : List Char) : List Char :=
  ((n.dropWhile (fun c => c != '[')).drop 1).takeWhile (fun c => c != ']')

/-- The validation collaborators inside `urlsplit`: `bracketedHostOK`
models `_check_bracketed_host` (the `ipaddress`/IPvFuture check) and
`nonAsciiNetlocOK` the NFKC check of `_checknetloc` on a non-ASCII netloc
(an ASCII netloc always passes that check). -/
structure NetOracles where
  bracketedHostOK : List Char → Bool
  nonAsciiNetlocOK : List Char → Bool

def isAsciiChar (c : Char) : Bool := c.toNat ≤ 127

/-- The netloc validation: the bracket checks of `urlsplit` and
`_checknetloc`, with the raised `ValueError` message as the error. -/
def checkNetloc (O : NetOracles) (n : List Char) : Except (List Char) Unit :=
  if ('[' ∈ n ∧ ']' ∉ n) ∨ (']' ∈ n ∧ '[' ∉ n) then
    .error "Invalid IPv6 URL".toList
  else if '[' ∈ n ∧ ']' ∈ n ∧ ¬ O.bracketedHostOK (bracketedHost n) then
    .error "invalid bracketed host".toList
  else if (¬ n.all isAsciiChar) ∧ ¬ O.nonAsciiNetlocOK n then
    .error "netloc contains invalid characters".toList
  else .ok ()

/-- `uses_params` of CPython 3.11. -/
def usesParams : List (List Char) :=
  ["", "ftp", "hdl", "prospero", "http", "imap", "https", "shttp", "rtsp",
   "rtsps", "rtspu", "sip", "sips", "mms", "sftp", "tel"].map String.toList

/-- `uses_netloc` of CPython 3.11. -/
def usesNetloc : List (List Char) :=
  ["", "ftp", "http", "gopher", "nntp", "telnet", "imap", "wais", "file",
   "mms", "https", "shttp", "snews", "prospero", "rtsp", "rtsps", "rtspu",
   "rsync", "svn", "svn+ssh", "sftp", "nfs", "git", "git+ssh", "ws",
   "wss"].map String.toList

/-- `url.rfind(c)`. -/
def rfindIdx (c : Char) (l : List Char) : Option ℕ :=
  (l.reverse.findIdx? (· = c)).map (fun k => l.length - 1 - k)

/-- The path part of `_splitparams(url)` (reached only when the scheme is
in `uses_params` and `';' ∈ url`): with a `/` in the path, params start at
the first `;` at or after the last `/` (none → no params); otherwise at
the first `;`. -/
def splitParamsPath (p : List Char) : List Char :=
  if '/' ∈ p then
    match rfindIdx '/' p with
    | none => p
    | some j =>
      match (p.drop j).findIdx? (· = ';') with
      | none => p
      | some k => p.take (j + k)
  else p.takeWhile (fun c => c != ';')

/-- The components of `urlparse` that `canon` reads. -/
structure PySplit where
  scheme : List Char
  netloc : List Char
  path : List Char
deriving DecidableEq

/-- `urlparse(url)` restricted to scheme, netloc and path; `Except` carries
a raised `ValueError`.  (CPython runs the bracket checks at the netloc
split and `_checknetloc` after the query split; both happen before any
result is returned, so they are folded into one check here.) -/
def pyUrlparse (O : NetOracles) (url : List Char) : Except (List Char) PySplit :=
  let u := pyCleanUrl url
  let s := splitScheme u
  let nl := splitNetloc s.2
  match checkNetloc O nl.1 with
  | .error e => .error e
  | .ok _ =>
    let afterFrag := nl.2.takeWhile (fun c => c != '#')
    let path0 := afterFrag.takeWhile (fun c => c != '?')
    let path :=
      if s.1 ∈ usesParams ∧ ';' ∈ path0 then splitParamsPath path0 else path0
    .ok ⟨s.1, nl.1, path⟩

/-- `urlunparse((scheme, netloc, path, "", "", ""))`, i.e. `urlunsplit`
with empty params, query and fragment. -/
def pyUrlunparse3 (scheme netloc path : List Char) : List Char :=
  let url :=
    if netloc ≠ [] ∨ (scheme ≠ [] ∧ scheme ∈ usesNetloc ∧ path.take 2 ≠ ['/', '/'])
    then
      let p := if path ≠ [] ∧ path.headD ' ' ≠ '/' then '/' :: path else path
      '/' :: '/' :: (netloc ++ p)
    else path
  if scheme ≠ [] then scheme ++ ':' :: url else url

/-- `path.rstrip("/")`. -/
def rstripSlash (p : List Char) : List Char :=
  (p.reverse.dropWhile (fun c => c == '/')).reverse

/-- crawl_and_rank.py, `canon` (lines 23-25). -/
def canon (O : NetOracles) (url : List Char) : Except (List Char) (List Char) :=
  match pyUrlparse O url with
  | .error e => .error e
  | .ok u => .ok (pyUrlunparse3 u.scheme (u.netloc.map Char.toLower) (rstripSlash u.path))

/-- The netloc as computed during the parse of `url` (used to state when
`canon` raises). -/
def parsedNetloc (url : List Char) : List Char :=
  (splitNetloc (splitScheme (pyCleanUrl url)).2).1

/-- The scheme as computed during the parse of `url`. -/
def parsedScheme (url : List Char) : List Char :=
  (splitScheme (pyCleanUrl url)).1

/-- What follows the netloc during the parse of `url`. -/
def parsedRest (url : List Char) : List Char :=
  (splitNetloc (splitScheme (pyCleanUrl url)).2).2

/-- The path before params splitting: the rest up to the first `#`, then up
to the first `?`. -/
def parsedPath0 (url : List Char) : List Char :=
  ((parsedRest url).takeWhile (fun c => c != '#')).takeWhile (fun c => c != '?')

/-- The path as returned by `urlparse`. -/
def parsedPath (url : List Char) : List Char :=
  if parsedScheme url ∈ usesParams ∧ ';' ∈ parsedPath0 url then
    splitParamsPath (parsedPath0 url)
  else parsedPath0 url

/-- Oracle instantiation for closed evaluations: accept every bracketed
host and every non-ASCII netloc (the concrete inputs below never reach the
oracles' interesting part). -/
def oraclesDemo : NetOracles := ⟨fun _ => true, fun _ => true⟩

/-! # Theorems -/

/-! ## C9 / C10: `length_score` -/

lemma length_score_nonneg (n : Option ℤ) (m M : ℤ) : 0 ≤ length_score n m M := by
  match n with
  | none => simp [length_score]
  | some k =>
    simp only [length_score]
    split
    · exact le_refl 0
    · split
      · have h1 : (0:ℚ) < ((max 1 m : ℤ) : ℚ) := by
          have : (1:ℤ) ≤ max 1 m := le_max_left 1 m
          exact_mod_cast lt_of_lt_of_le one_pos this
        have h2 : (0:ℚ) ≤ (k : ℚ) := by
          have : ¬ k ≤ 0 := by assumption
          exact_mod_cast le_of_lt (by omega : (0:ℤ) < k)
        positivity
      · split
        · norm_num
        · exact le_of_lt (lt_max_of_lt_left (by norm_num))

lemma length_score_over (n m M : ℤ) (hM0 : 0 ≤ M) (hmM : m ≤ M) (hn : M < n) :
    length_score (some n) m M
      = max (2/5 : ℚ) (1 / (1 + ((n - M : ℤ) : ℚ) / 100000)) := by
  simp only [length_score]
  rw [if_neg (by omega), if_neg (by omega), if_neg (by omega)]

/-- C9: boundary values, the linear sub-minimum regime, monotonicity on
`[0, min_chars]`, the sweet-spot plateau, and the over-length decay of
`length_score`. -/
theorem length_score_spec (m M : ℤ) (hm : 1 ≤ m) (hmM : m ≤ M) :
    length_score (some 0) m M = 0
    ∧ (∀ n : ℤ, 0 < n → n < m →
        length_score (some n) m M = (1/5 : ℚ) * ((n : ℚ) / (m : ℚ)))
    ∧ (∀ a b : ℤ, 0 ≤ a → a ≤ b → b ≤ m →
        length_score (some a) m M ≤ length_score (some b) m M)
    ∧ length_score (some m) m M = 1
    ∧ (∀ n : ℤ, m ≤ n → n ≤ M → length_score (some n) m M = 1)
    ∧ (∀ n : ℤ, M < n → length_score (some n) m M
        = max (2/5 : ℚ) (1 / (1 + ((n - M : ℤ) : ℚ) / 100000)))
    ∧ (∀ a b : ℤ, M < a → a ≤ b →
        length_score (some b) m M ≤ length_score (some a) m M)
    ∧ (∀ n : ℤ, M < n → 0 < length_score (some n) m M) := by
  have hmax : max 1 m = m := max_eq_right hm
  have hm0 : (0 : ℚ) < (m : ℚ) := by exact_mod_cast lt_of_lt_of_le one_pos hm
  have hM0 : (0:ℤ) ≤ M := le_trans (le_trans zero_le_one hm) hmM
  have hsub : ∀ n : ℤ, 0 < n → n < m →
      length_score (some n) m M = (1/5 : ℚ) * ((n : ℚ) / (m : ℚ)) := by
    intro n hn hnm
    simp only [length_score, hmax]
    rw [if_neg (by omega), if_pos hnm]
  have hplateau : ∀ n : ℤ, m ≤ n → n ≤ M → length_score (some n) m M = 1 := by
    intro n h1 h2
    simp only [length_score]
    rw [if_neg (by omega), if_neg (by omega), if_pos h2]
  refine ⟨by simp [length_score], hsub, ?_, hplateau m le_rfl hmM, hplateau,
    fun n hn => length_score_over n m M hM0 hmM hn, ?_, ?_⟩
  · intro a b ha hab hbm
    rcases eq_or_lt_of_le ha with ha0 | ha0
    · have : length_score (some a) m M = 0 := by simp [length_score, ← ha0]
      rw [this]
      exact length_score_nonneg _ _ _
    · rcases lt_or_eq_of_le hbm with hbm' | hbm'
      · have ham : a < m := lt_of_le_of_lt hab hbm'
        rw [hsub a ha0 ham, hsub b (lt_of_lt_of_le ha0 hab) hbm']
        have hq : (a : ℚ) ≤ (b : ℚ) := by exact_mod_cast hab
        have : (a : ℚ) / (m : ℚ) ≤ (b : ℚ) / (m : ℚ) := by gcongr
        linarith
      · rw [hbm', hplateau m le_rfl hmM]
        rcases lt_or_le a m with ham | ham
        · rw [hsub a ha0 ham]
          have h1 : (a : ℚ) / (m : ℚ) ≤ 1 := by
            rw [div_le_one hm0]
            exact_mod_cast le_of_lt ham
          linarith
        · rw [hplateau a ham (by omega : a ≤ M)]
  · intro a b ha hab
    have hb : M < b := lt_of_lt_of_le ha hab
    rw [length_score_over a m M hM0 hmM ha, length_score_over b m M hM0 hmM hb]
    refine max_le_max le_rfl ?_
    have h1 : (0:ℚ) < 1 + ((a - M : ℤ) : ℚ) / 100000 := by
      have : (0:ℚ) ≤ ((a - M : ℤ) : ℚ) := by exact_mod_cast le_of_lt (by omega : (0:ℤ) < a - M)
      positivity
    have h2 : 1 + ((a - M : ℤ) : ℚ) / 100000 ≤ 1 + ((b - M : ℤ) : ℚ) / 100000 := by
      have : ((a - M : ℤ) : ℚ) ≤ ((b - M : ℤ) : ℚ) := by exact_mod_cast (by omega : a - M ≤ b - M)
      linarith
    exact one_div_le_one_div_of_le h1 h2
  · intro n hn
    rw [length_score_over n m M hM0 hmM hn]
    exact lt_max_of_lt_left (by norm_num)

/-- C9 witness: the theorem instantiated at the default configuration
`min_chars = 500`, `max_chars = 150000`. -/
theorem length_score_spec_witness :
    length_score (some 0) 500 150000 = 0
    ∧ length_score (some 500) 500 150000 = 1
    ∧ length_score (some 250) 500 150000 = (1/5 : ℚ) * ((250 : ℚ) / (500 : ℚ)) := by
  obtain ⟨h0, hlin, _, hmin, _, _, _, _⟩ :=
    length_score_spec 500 150000 (by norm_num) (by norm_num)
  exact ⟨h0, hmin, hlin 250 (by norm_num) (by norm_num)⟩

/-- C10: above `max_chars` the score is exactly
`max(0.4, 1 / (1 + (n - max_chars)/100000))`, hence never below `0.4`,
and once the overflow reaches `150000` characters it is constantly `0.4`. -/
theorem length_score_over_spec (m M : ℤ) (hm : 1 ≤ m) (hmM : m ≤ M) :
    (∀ n : ℤ, M < n → length_score (some n) m M
        = max (2/5 : ℚ) (1 / (1 + ((n - M : ℤ) : ℚ) / 100000)))
    ∧ (∀ n : ℤ, M < n → (2/5 : ℚ) ≤ length_score (some n) m M)
    ∧ (∀ n : ℤ, M + 150000 ≤ n → length_score (some n) m M = (2/5 : ℚ)) := by
  have hM0 : (0:ℤ) ≤ M := le_trans (le_trans zero_le_one hm) hmM
  refine ⟨fun n hn => length_score_over n m M hM0 hmM hn, ?_, ?_⟩
  · intro n hn
    rw [length_score_over n m M hM0 hmM hn]
    exact le_max_left _ _
  · intro n hn
    have hn' : M < n := by omega
    rw [length_score_over n m M hM0 hmM hn']
    have hge : (150000 : ℚ) ≤ ((n - M : ℤ) : ℚ) := by exact_mod_cast (by omega : (150000:ℤ) ≤ n - M)
    have h1 : (0:ℚ) < 1 + ((n - M : ℤ) : ℚ) / 100000 := by positivity
    have h2 : (1 : ℚ) / (1 + ((n - M : ℤ) : ℚ) / 100000) ≤ 2/5 := by
      rw [div_le_iff₀ h1]
      linarith
    exact max_eq_left h2

/-- C10 witness: concrete evaluations at the default configuration. -/
theorem length_score_over_spec_witness :
    length_score (some 150001) 500 150000
      = max (2/5 : ℚ) (1 / (1 + ((150001 - 150000 : ℤ) : ℚ) / 100000))
    ∧ length_score (some 300000) 500 150000 = (2/5 : ℚ) := by
  obtain ⟨hfm, _, hconst⟩ := length_score_over_spec 500 150000 (by norm_num) (by norm_num)
  exact ⟨hfm 150001 (by norm_num), hconst 300000 (by norm_num)⟩

/-! ## C8: `recency_score` -/

lemma recency_score_formula (parseDays : String → Option ℤ) (str : String)
    (h c d : ℤ) (hh : 1 ≤ h) (hs : str ≠ "") (hp : parseDays str = some d) (hd : 0 ≤ d) :
    recency_score parseDays (some str) h c
      = (if c < d then ((1/2 : ℝ) ^ ((d : ℝ) / (h : ℝ))) * (3/10)
         else (1/2 : ℝ) ^ ((d : ℝ) / (h : ℝ))) := by
  have h1 : max 1 h = h := max_eq_right hh
  have h2 : max 0 d = d := max_eq_right hd
  simp only [recency_score, if_neg hs, hp, h1, h2]

/-- C8: for a parseable timestamp of age `d ≥ 0` days the recency score is
`0.5 ^ (d / half_life_days)`, times an extra `0.3` once `d` exceeds the hard
cutoff; it is `1` at age `0`, `0.5` at age `half_life_days`, strictly
decreasing in the age, and a missing or unparseable timestamp scores `0.2`. -/
theorem recency_score_spec (parseDays : String → Option ℤ) (h c : ℤ)
    (hh : 1 ≤ h) (hhc : h ≤ c) :
    (∀ str d, str ≠ "" → parseDays str = some d → 0 ≤ d →
        recency_score parseDays (some str) h c
          = (if c < d then ((1/2 : ℝ) ^ ((d : ℝ) / (h : ℝ))) * (3/10)
             else (1/2 : ℝ) ^ ((d : ℝ) / (h : ℝ))))
    ∧ (∀ str, str ≠ "" → parseDays str = some 0 →
        recency_score parseDays (some str) h c = 1)
    ∧ (∀ str, str ≠ "" → parseDays str = some h →
        recency_score parseDays (some str) h c = 1/2)
    ∧ (∀ s₁ s₂ d₁ d₂, s₁ ≠ "" → s₂ ≠ "" →
        parseDays s₁ = some d₁ → parseDays s₂ = some d₂ → 0 ≤ d₁ → d₁ < d₂ →
        recency_score parseDays (some s₂) h c < recency_score parseDays (some s₁) h c)
    ∧ recency_score parseDays none h c = 1/5
    ∧ (∀ str, str ≠ "" → parseDays str = none →
        recency_score parseDays (some str) h c = 1/5) := by
  have hhR : (0:ℝ) < (h : ℝ) := by exact_mod_cast lt_of_lt_of_le one_pos hh
  have hbase0 : (0:ℝ) < 1/2 := by norm_num
  have hbase1 : (1/2 : ℝ) < 1 := by norm_num
  have hpos : ∀ x : ℝ, (0:ℝ) < (1/2 : ℝ) ^ x := fun x => Real.rpow_pos_of_pos hbase0 x
  refine ⟨fun str d hs hp hd => recency_score_formula parseDays str h c d hh hs hp hd,
    ?_, ?_, ?_, by simp [recency_score], ?_⟩
  · intro str hs hp
    rw [recency_score_formula parseDays str h c 0 hh hs hp le_rfl,
      if_neg (by omega)]
    norm_num
  · intro str hs hp
    rw [recency_score_formula parseDays str h c h hh hs hp (by omega),
      if_neg (by omega)]
    rw [div_self (ne_of_gt hhR), Real.rpow_one]
  · intro s₁ s₂ d₁ d₂ hs₁ hs₂ hp₁ hp₂ hd₁ hlt
    rw [recency_score_formula parseDays s₁ h c d₁ hh hs₁ hp₁ hd₁,
      recency_score_formula parseDays s₂ h c d₂ hh hs₂ hp₂ (by omega)]
    have hdd : (d₁ : ℝ) < (d₂ : ℝ) := by exact_mod_cast hlt
    have hexp : (d₁ : ℝ) / (h : ℝ) < (d₂ : ℝ) / (h : ℝ) := by gcongr
    have hrpow : (1/2 : ℝ) ^ ((d₂ : ℝ) / (h : ℝ)) < (1/2 : ℝ) ^ ((d₁ : ℝ) / (h : ℝ)) :=
      Real.rpow_lt_rpow_of_exponent_gt hbase0 hbase1 hexp
    by_cases h1 : c < d₁
    · rw [if_pos h1, if_pos (by omega)]
      exact mul_lt_mul_of_pos_right hrpow (by norm_num)
    · rw [if_neg h1]
      by_cases h2 : c < d₂
      · rw [if_pos h2]
        calc (1/2 : ℝ) ^ ((d₂ : ℝ) / (h : ℝ)) * (3/10)
            < (1/2 : ℝ) ^ ((d₂ : ℝ) / (h : ℝ)) :=
              mul_lt_of_lt_one_right (hpos _) (by norm_num)
          _ < (1/2 : ℝ) ^ ((d₁ : ℝ) / (h : ℝ)) := hrpow
      · rw [if_neg h2]
        exact hrpow
  · intro str hs hp
    simp [recency_score, if_neg hs, hp]

/-- C8 witness: the theorem applied to a concrete `datetime` collaborator at
the default configuration `half_life_days = 14`, `hard_days_cutoff = 365`. -/
theorem recency_score_spec_witness :
    recency_score parseDaysDemo (some "2025-10-12T00:00:00Z") 14 365 = 1
    ∧ recency_score parseDaysDemo (some "2025-09-28T00:00:00Z") 14 365 = 1/2
    ∧ recency_score parseDaysDemo none 14 365 = 1/5 := by
  obtain ⟨_, hage0, hhalf, _, hnone, _⟩ :=
    recency_score_spec parseDaysDemo 14 365 (by norm_num) (by norm_num)
  exact ⟨hage0 _ (by decide) rfl, hhalf _ (by decide) rfl, hnone⟩

/-! ## C4: score fusion -/

/-- C4: the fused score is the weighted linear combination
`Σ weight_i * score_i` of the four signal scores, and it is a deterministic
pure function: identical scores and weights give an identical fused score. -/
theorem fuse_score_spec :
    (∀ wk wd wr wl ks ds rs ls : ℚ,
        fuse_score wk wd wr wl ks ds rs ls
          = ([(wk, ks), (wd, ds), (wr, rs), (wl, ls)].map (fun p => p.1 * p.2)).sum)
    ∧ (∀ wk wd wr wl ks ds rs ls wk' wd' wr' wl' ks' ds' rs' ls' : ℚ,
        wk = wk' → wd = wd' → wr = wr' → wl = wl' →
        ks = ks' → ds = ds' → rs = rs' → ls = ls' →
        fuse_score wk wd wr wl ks ds rs ls
          = fuse_score wk' wd' wr' wl' ks' ds' rs' ls') := by
  constructor
  · intro wk wd wr wl ks ds rs ls
    simp [fuse_score]
    ring
  · intro wk wd wr wl ks ds rs ls wk' wd' wr' wl' ks' ds' rs' ls'
    intro h1 h2 h3 h4 h5 h6 h7 h8
    subst h1; subst h2; subst h3; subst h4; subst h5; subst h6; subst h7; subst h8
    rfl

/-- C4 witness: the theorem applied at the default weights
`(0.5, 0.2, 0.2, 0.1)` and concrete signal scores. -/
theorem fuse_score_spec_witness :
    fuse_score (1/2) (1/5) (1/5) (1/10) 2 (3/5) 1 1
      = ([((1/2 : ℚ), (2 : ℚ)), (1/5, 3/5), (1/5, 1), (1/10, 1)].map
          (fun p => p.1 * p.2)).sum
    ∧ fuse_score (1/2) (1/5) (1/5) (1/10) 2 (3/5) 1 1
      = fuse_score (1/2) (1/5) (1/5) (1/10) 2 (3/5) 1 1 := by
  exact ⟨fuse_score_spec.1 (1/2) (1/5) (1/5) (1/10) 2 (3/5) 1 1,
    fuse_score_spec.2 (1/2) (1/5) (1/5) (1/10) 2 (3/5) 1 1
      (1/2) (1/5) (1/5) (1/10) 2 (3/5) 1 1 rfl rfl rfl rfl rfl rfl rfl rfl⟩

/-! ## C7: `keyword_score` -/

/-- C7 counterexample: on the empty text with the single (valid) include
regex `/x*/` the code returns `0.0` from the `if not text` early return,
while the claimed formula `max(0, log1p(P) - 1.5*log1p(N))` evaluates on
`P = 1` (the regex matches the empty text once) and `N = 0` to a strictly
positive value. -/
theorem keyword_score_empty_text_cex :
    keyword_score reDemo log1pDemo "" ["/x*/"] [] = 0
    ∧ hitCount reDemo "" ["/x*/"] = 1
    ∧ keyword_score reDemo log1pDemo "" ["/x*/"] []
        ≠ max 0 (log1pDemo (hitCount reDemo "" ["/x*/"])
            - (3/2 : ℚ) * log1pDemo (hitCount reDemo "" [])) := by
  refine ⟨by decide, by decide, ?_⟩
  have hL : keyword_score reDemo log1pDemo "" ["/x*/"] [] = 0 := by decide
  have h1 : hitCount reDemo "" ["/x*/"] = 1 := by decide
  have h2 : hitCount reDemo "" [] = 0 := by decide
  rw [hL, h1, h2]
  norm_num [log1pDemo]

/-- C7 (amended): for every NON-empty text, `keyword_score` equals
`max(0, log1p(P) - 1.5 * log1p(N))` where `P` (resp. `N`) is the total hit
count of the include (resp. exclude) patterns — full regex match for
`/`-delimited patterns, case-insensitive substring count otherwise, invalid
regexes skipped; the empty text always scores `0` regardless of the
patterns.  The hypothesis `log1p 0 = 0` is a fact of `math.log1p`. -/
theorem keyword_score_formula_spec (re : String → Option (String → ℕ))
    (log1p : ℕ → ℚ) (hlog0 : log1p 0 = 0) :
    (∀ text inc exc, text ≠ "" →
        keyword_score re log1p text inc exc
          = max 0 (log1p (hitCount re text inc)
              - (3/2 : ℚ) * log1p (hitCount re text exc)))
    ∧ (∀ text tl kw, kw ≠ "" → pyStartsWith kw "/" → pyEndsWith kw "/" →
        re (pyInner kw) = none → patHits re text tl kw = 0)
    ∧ (∀ inc exc, keyword_score re log1p "" inc exc = 0) := by
  refine ⟨?_, ?_, fun inc exc => by simp [keyword_score]⟩
  · intro text inc exc htext
    simp only [keyword_score, if_neg htext]
    rcases Nat.eq_zero_or_pos (hitCount re text inc) with hp | hp
    · rw [hp, if_neg (by omega), hlog0]
      rcases Nat.eq_zero_or_pos (hitCount re text exc) with hn | hn
      · rw [hn, if_neg (by omega), hlog0]
        norm_num
      · rw [if_pos hn]
    · rw [if_pos hp]
      rcases Nat.eq_zero_or_pos (hitCount re text exc) with hn | hn
      · rw [hn, if_neg (by omega), hlog0]
        norm_num
      · rw [if_pos hn]
  · intro text tl kw h1 h2 h3 h4
    simp [patHits, h1, h2, h3, h4]

/-- C7 witness: the amended theorem applied to concrete collaborators and a
concrete non-empty text; `"b"` occurs once in `"abc"` as a literal. -/
theorem keyword_score_formula_spec_witness :
    keyword_score reDemo log1pDemo "abc" ["b"] []
      = max 0 (log1pDemo (hitCount reDemo "abc" ["b"])
          - (3/2 : ℚ) * log1pDemo (hitCount reDemo "abc" []))
    ∧ keyword_score reDemo log1pDemo "" ["b"] [] = 0 := by
  obtain ⟨hformula, _, hempty⟩ :=
    keyword_score_formula_spec reDemo log1pDemo rfl
  exact ⟨hformula "abc" ["b"] [] (by decide), hempty ["b"] []⟩

/-! ## C3: second-stage re-score and final ranking -/

/-- C3 counterexample: with `top_k_for_llm = 2` and the five items of
`demoScored`, the item `"a"` has the highest provisional score yet carries
`score_llm = 0` — its content is empty and `math.log1p(0) == 0.0` — so it
is false that the top-2 items all receive a non-zero bonus; only `"b"`
does. -/
theorem rescore_zero_bonus_cex :
    demoScored.map Scored.score_raw = [2, 1, 3/4, 1/2, 1/4]
    ∧ (rankResults log1pDemo true 2 40 demoScored).map
        (fun r => (r.url, r.score_llm))
      = [("a", 0), ("b", 1/100), ("c", 0), ("d", 0), ("e", 0)] := by
  constructor
  · norm_num [demoScored]
  · norm_num [rankResults, rescoreK, provSorted, pySortDesc, demoScored,
      List.insertionSort, List.orderedInsert, keyDesc, applyBonus, noBonus,
      log1pDemo, min_def]

/-- C3 (amended): with the second stage enabled and `K = min(top_k, n)`:
each item of the provisionally-sorted head receives the bonus
`min(0.1, log1p(chars)/10000)` — bounded by `0.1`, positive whenever the
item's content is non-empty — and the `"llm:bonus"` marker appended to its
reasons; an item carries a non-zero bonus only if it is in the head; items
outside the top K keep bonus exactly `0` and an unchanged score; head items
dominate tail items in provisional score; the final output is the
recombined `head ++ tail` stably sorted descending by post-bonus score
(ties keeping the recombined order) and truncated to `final_n`. -/
theorem rescore_spec (l1p : ℕ → ℚ) (top_k final_n : ℕ) (scored : List Scored)
    (hpos : ∀ n : ℕ, 0 < n → 0 < l1p n) :
    (∀ h ∈ (provSorted scored).take (min top_k scored.length),
        (applyBonus l1p h).score_llm = min (1/10 : ℚ) (l1p h.chars / 10000)
        ∧ (applyBonus l1p h).score
            = h.score_raw + min (1/10 : ℚ) (l1p h.chars / 10000)
        ∧ (applyBonus l1p h).reasons = h.reasons ++ ["llm:bonus"]
        ∧ (applyBonus l1p h).score_llm ≤ 1/10
        ∧ (0 < h.chars → 0 < (applyBonus l1p h).score_llm))
    ∧ (∀ r ∈ rescoreK l1p top_k scored, r.score_llm ≠ 0 →
        ∃ h ∈ (provSorted scored).take (min top_k scored.length),
          r = applyBonus l1p h)
    ∧ (∀ t ∈ (provSorted scored).drop (min top_k scored.length),
        (noBonus t).score_llm = 0 ∧ (noBonus t).score = t.score_raw
        ∧ (noBonus t).reasons = t.reasons)
    ∧ (∀ a ∈ (provSorted scored).take (min top_k scored.length),
        ∀ b ∈ (provSorted scored).drop (min top_k scored.length),
        b.score_raw ≤ a.score_raw)
    ∧ rankResults l1p true top_k final_n scored
        = (pySortDesc Ranked.score (rescoreK l1p top_k scored)).take final_n
    ∧ (pySortDesc Ranked.score (rescoreK l1p top_k scored)).Perm
        (rescoreK l1p top_k scored)
    ∧ (rankResults l1p true top_k final_n scored).Sorted (keyDesc Ranked.score)
    ∧ (rankResults l1p true top_k final_n scored).length
        = min final_n scored.length
    ∧ (∀ a b : Ranked, List.Sublist [a, b] (rescoreK l1p top_k scored) →
        b.score ≤ a.score →
        List.Sublist [a, b] (pySortDesc Ranked.score (rescoreK l1p top_k scored))) := by
  have hlen : (rescoreK l1p top_k scored).length = scored.length := by
    simp only [rescoreK, List.length_append, List.length_map, List.length_take,
      List.length_drop, provSorted, pySortDesc, List.length_insertionSort]
    omega
  refine ⟨?_, ?_, ?_, ?_, rfl, List.perm_insertionSort _ _, ?_, ?_, ?_⟩
  · intro h _
    refine ⟨rfl, rfl, rfl, min_le_left _ _, fun hc => ?_⟩
    exact lt_min (by norm_num) (div_pos (hpos _ hc) (by norm_num))
  · intro r hr hne
    rcases List.mem_append.mp hr with hr | hr
    · obtain ⟨h, hh, rfl⟩ := List.mem_map.mp hr
      exact ⟨h, hh, rfl⟩
    · obtain ⟨t, _, rfl⟩ := List.mem_map.mp hr
      exact absurd rfl hne
  · intro t _
    exact ⟨rfl, rfl, rfl⟩
  · intro a ha b hb
    exact (List.sorted_insertionSort (keyDesc Scored.score_raw)
      scored).rel_of_mem_take_of_mem_drop ha hb
  · exact List.Pairwise.sublist (List.take_sublist _ _)
      (List.sorted_insertionSort (keyDesc Ranked.score) _)
  · simp only [rankResults, if_pos, List.length_take, pySortDesc,
      List.length_insertionSort, hlen]
  · intro a b hsub hab
    exact List.pair_sublist_insertionSort hab hsub

/-- C3 witness: the amended theorem applied at `top_k = 2` on the five demo
items: the head item `"b"` (non-empty content) gets a positive bonus, the
tail item `"c"` keeps bonus `0`. -/
theorem rescore_spec_witness :
    (0 : ℚ) < (applyBonus log1pDemo ⟨"b", 1, 100, []⟩).score_llm
    ∧ (noBonus ⟨"c", 3/4, 50, []⟩).score_llm = 0 := by
  have hsorted : provSorted demoScored = demoScored := by
    apply List.Sorted.insertionSort_eq
    norm_num [demoScored, List.sorted_cons, keyDesc]
  obtain ⟨hhead, _, htail, _, _, _, _, _, _⟩ :=
    rescore_spec log1pDemo 2 40 demoScored
      (fun n hn => by simp only [log1pDemo]; exact_mod_cast hn)
  refine ⟨(hhead ⟨"b", 1, 100, []⟩ ?_).2.2.2.2 (by norm_num),
    (htail ⟨"c", 3/4, 50, []⟩ ?_).1⟩
  · rw [hsorted]
    simp [demoScored]
  · rw [hsorted]
    simp [demoScored]

/-! ## C1 / C2: ledger resume and retry policy -/

lemma truthy_ne_empty {a : Option String} {s : String} (h : truthy a = some s) :
    s ≠ "" := by
  match a with
  | none => simp [truthy] at h
  | some t =>
    by_cases ht : t = ""
    · simp [truthy, ht] at h
    · simp only [truthy, if_neg ht, Option.some.injEq] at h
      exact h ▸ ht

lemma pick2_ne_empty {a b : Option String} {s : String} (h : pick2 a b = some s) :
    s ≠ "" := by
  simp only [pick2] at h
  rcases ha : truthy a with _ | t
  · rw [ha] at h
    exact truthy_ne_empty h
  · rw [ha] at h
    exact truthy_ne_empty (ha.trans h)

lemma mem_normItems_url_ne_empty {files : List (String × List RawRec)}
    {it : Item} (h : it ∈ normItems files) : it.url ≠ "" := by
  simp only [normItems, List.mem_flatMap, List.mem_filterMap] at h
  obtain ⟨f, _, r, _, hr⟩ := h
  rcases hp : pick2 r.url r.link with _ | u
  · rw [hp] at hr
    exact absurd hr (by simp)
  · rw [hp] at hr
    simp only [Option.some.injEq] at hr
    have : it.url = u := by rw [← hr]
    exact this ▸ pick2_ne_empty hp

lemma dedupByUrl_subset : ∀ (l : List Item) (seen : List String),
    ∀ it ∈ dedupByUrl l seen, it ∈ l
  | [], _ => by simp [dedupByUrl]
  | a :: rest, seen => by
    intro it hit
    by_cases h : a.url ∈ seen
    · simp only [dedupByUrl, if_pos h] at hit
      exact List.mem_cons_of_mem _ (dedupByUrl_subset rest seen it hit)
    · simp only [dedupByUrl, if_neg h, List.mem_cons] at hit
      rcases hit with rfl | hit
      · exact List.mem_cons_self _ _
      · exact List.mem_cons_of_mem _ (dedupByUrl_subset rest _ it hit)

lemma load_items_url_ne_empty {files : List (String × List RawRec)}
    {it : Item} (h : it ∈ load_items files) : it.url ≠ "" :=
  mem_normItems_url_ne_empty (dedupByUrl_subset _ _ it h)

lemma dedupByUrl_nodup : ∀ (l : List Item) (seen : List String),
    ((dedupByUrl l seen).map Item.url).Nodup
    ∧ ∀ u ∈ (dedupByUrl l seen).map Item.url, u ∉ seen
  | [], seen => by simp [dedupByUrl]
  | a :: rest, seen => by
    by_cases h : a.url ∈ seen
    · simpa [dedupByUrl, h] using dedupByUrl_nodup rest seen
    · have ih := dedupByUrl_nodup rest (a.url :: seen)
      simp only [dedupByUrl, if_neg h, List.map_cons, List.nodup_cons]
      refine ⟨⟨fun hmem => (ih.2 a.url hmem) (List.mem_cons_self _ _), ih.1⟩, ?_⟩
      intro u hu
      rcases List.mem_cons.mp hu with rfl | hu
      · exact h
      · intro hus
        exact (ih.2 u hu) (List.mem_cons_of_mem _ hus)

lemma load_items_nodup (files : List (String × List RawRec)) :
    ((load_items files).map Item.url).Nodup :=
  (dedupByUrl_nodup _ _).1

lemma mem_done_ok {L : List FetchRec} {u : String} :
    u ∈ done_ok L ↔ ∃ r ∈ L, r.ok = true ∧ r.url ≠ "" ∧ r.url = u := by
  simp only [done_ok, List.mem_map, List.mem_filter, Bool.and_eq_true,
    Bool.not_eq_true', beq_eq_false_iff_ne, ne_eq]
  constructor
  · rintro ⟨r, ⟨hr, hok, hne⟩, rfl⟩
    exact ⟨r, hr, hok, hne, rfl⟩
  · rintro ⟨r, hr, hok, hne, rfl⟩
    exact ⟨r, ⟨hr, hok, hne⟩, rfl⟩

lemma mem_pendingOf {items : List Item} {L : List FetchRec} {it : Item} :
    it ∈ pendingOf items L ↔ it ∈ items ∧ it.url ∉ done_ok L := by
  simp only [pendingOf, List.mem_filter, Bool.not_eq_true', List.contains,
    List.elem_eq_mem, decide_eq_false_iff_not]

lemma fetch_one_record_url (env : String → ℕ → FetchOutcome)
    (sha : String → String) (t : String) (retries : ℕ) (it : Item) :
    (fetch_one env sha t retries it).record.url = it.url := by
  simp only [fetch_one]
  split <;> rfl

lemma okCount_append (L₁ L₂ : List FetchRec) (u : String) :
    okCount (L₁ ++ L₂) u = okCount L₁ u + okCount L₂ u := by
  simp [okCount, List.filter_append]

lemma okCount_le_one_of_nodup : ∀ (l : List FetchRec) (u : String),
    ((l.map FetchRec.url).Nodup) → okCount l u ≤ 1
  | [], u, _ => by simp [okCount]
  | r :: rest, u, h => by
    simp only [List.map_cons, List.nodup_cons] at h
    simp only [okCount, List.filter_cons]
    by_cases hr : (r.ok && r.url == u) = true
    · rw [if_pos hr]
      have hru : r.url = u := by
        have := (Bool.and_eq_true _ _).mp hr
        exact beq_iff_eq.mp this.2
      have : (rest.filter (fun x => x.ok && x.url == u)) = [] := by
        rw [List.filter_eq_nil_iff]
        intro x hx hxp
        have hxu : x.url = u := beq_iff_eq.mp ((Bool.and_eq_true _ _).mp hxp).2
        exact h.1 (hru ▸ hxu ▸ List.mem_map_of_mem FetchRec.url hx)
      simp [this]
    · rw [if_neg hr]
      exact okCount_le_one_of_nodup rest u h.2

lemma okCount_eq_zero {l : List FetchRec} {u : String}
    (h : ∀ r ∈ l, r.url ≠ u) : okCount l u = 0 := by
  simp only [okCount, List.length_eq_zero, List.filter_eq_nil_iff]
  intro r hr hp
  exact h r hr (beq_iff_eq.mp ((Bool.and_eq_true _ _).mp hp).2)

lemma okCount_pos_elim {L : List FetchRec} {u : String}
    (h : 0 < okCount L u) : ∃ r ∈ L, r.ok = true ∧ r.url = u := by
  rw [okCount, List.length_pos] at h
  obtain ⟨r, hr⟩ := List.exists_mem_of_ne_nil _ h
  have := List.mem_filter.mp hr
  refine ⟨r, this.1, ?_, beq_iff_eq.mp ((Bool.and_eq_true _ _).mp this.2).2⟩
  exact ((Bool.and_eq_true _ _).mp this.2).1

/-- One run of the orchestrator preserves the at-most-one-successful-record
invariant. -/
lemma run_crawl_preserves_okCount (env : String → ℕ → FetchOutcome)
    (sha : String → String) (t : String) (files : List (String × List RawRec))
    (L : List FetchRec) (hinv : ∀ u, okCount L u ≤ 1) :
    ∀ u, okCount (run_crawl env sha t files L) u ≤ 1 := by
  intro u
  simp only [run_crawl]
  split
  · exact hinv u
  · split
    · exact hinv u
    · rw [okCount_append]
      have hnodup : (((pendingOf (load_items files) L).map
          (fun it => (fetch_one env sha t 2 it).record)).map FetchRec.url).Nodup := by
        rw [List.map_map]
        have : (FetchRec.url ∘ fun it => (fetch_one env sha t 2 it).record)
            = Item.url := by
          funext it
          exact fetch_one_record_url env sha t 2 it
        rw [this]
        exact ((load_items_nodup files).sublist
          (List.Sublist.map Item.url (List.filter_sublist _)))
      rcases Nat.eq_zero_or_pos (okCount L u) with h0 | hpos
      · rw [h0, Nat.zero_add]
        exact okCount_le_one_of_nodup _ u hnodup
      · obtain ⟨r, hr, hok, hurl⟩ := okCount_pos_elim hpos
        have hzero : okCount ((pendingOf (load_items files) L).map
            (fun it => (fetch_one env sha t 2 it).record)) u = 0 := by
          apply okCount_eq_zero
          intro s hs
          obtain ⟨it, hit, rfl⟩ := List.mem_map.mp hs
          rw [fetch_one_record_url]
          by_cases hemp : u = ""
          · exact hemp ▸ load_items_url_ne_empty (mem_pendingOf.mp hit).1
          · intro hcon
            exact ((mem_pendingOf.mp hit).2)
              (hcon ▸ mem_done_ok.mpr ⟨r, hr, hok, hurl ▸ hemp, hurl⟩)
        rw [hzero, Nat.add_zero]
        exact hinv u

/-- C1: the pending list is the deduplicated candidate list minus the URLs
that already have an `ok=true` ledger record; candidates are de-duplicated;
a URL with an `ok=true` record is never re-fetched; a run preserves the
invariant that each URL has at most one `ok=true` record; and across the
ledger's lifetime (starting empty, growing only by successive runs, with
any sequence of candidate files and timestamps) at most one successful
record per URL ever exists. -/
theorem run_crawl_ledger_spec (env : String → ℕ → FetchOutcome)
    (sha : String → String) (t : String) (files : List (String × List RawRec))
    (L : List FetchRec) (hinv : ∀ u, okCount L u ≤ 1) :
    (∀ it : Item, it ∈ pendingOf (load_items files) L ↔
        it ∈ load_items files ∧ ¬ ∃ r ∈ L, r.ok = true ∧ r.url = it.url)
    ∧ ((load_items files).map Item.url).Nodup
    ∧ (∀ u ∈ done_ok L, ∀ it ∈ pendingOf (load_items files) L, it.url ≠ u)
    ∧ (∀ u, okCount (run_crawl env sha t files L) u ≤ 1)
    ∧ (∀ (runs : List (String × List (String × List RawRec))) (u : String),
        okCount (runs.foldl (fun acc p => run_crawl env sha p.1 p.2 acc) []) u ≤ 1) := by
  have hpend : ∀ it : Item, it ∈ pendingOf (load_items files) L ↔
      it ∈ load_items files ∧ ¬ ∃ r ∈ L, r.ok = true ∧ r.url = it.url := by
    intro it
    rw [mem_pendingOf]
    constructor
    · rintro ⟨hit, hnot⟩
      refine ⟨hit, fun ⟨r, hr, hok, hurl⟩ => hnot ?_⟩
      exact mem_done_ok.mpr ⟨r, hr, hok, hurl ▸ load_items_url_ne_empty hit, hurl⟩
    · rintro ⟨hit, hnot⟩
      refine ⟨hit, fun hmem => hnot ?_⟩
      obtain ⟨r, hr, hok, _, hurl⟩ := mem_done_ok.mp hmem
      exact ⟨r, hr, hok, hurl⟩
  have hfold : ∀ (runs : List (String × List (String × List RawRec)))
      (L₀ : List FetchRec), (∀ u, okCount L₀ u ≤ 1) →
      ∀ u, okCount (runs.foldl (fun acc p => run_crawl env sha p.1 p.2 acc) L₀) u ≤ 1 := by
    intro runs
    induction runs with
    | nil => intro L₀ hL u; exact hL u
    | cons p ps ih =>
      intro L₀ hL u
      exact ih _ (run_crawl_preserves_okCount env sha p.1 p.2 L₀ hL) u
  refine ⟨hpend, load_items_nodup files, ?_,
    run_crawl_preserves_okCount env sha t files L hinv,
    fun runs u => hfold runs [] (fun v => by simp [okCount]) u⟩
  intro u hu it hit heq
  exact ((mem_pendingOf.mp hit).2) (heq ▸ hu)

/-- C1 witness: the theorem applied to a concrete environment, candidate
files (with one duplicate URL and one record without URL) and a ledger in
which `http://a` is already fetched successfully. -/
theorem run_crawl_ledger_spec_witness :
    ((load_items filesDemo).map Item.url).Nodup
    ∧ okCount (run_crawl envDemo shaDemo "t1" filesDemo ledgerDemo) "http://a" ≤ 1 := by
  have hinv : ∀ u, okCount ledgerDemo u ≤ 1 := fun u =>
    le_trans (List.length_filter_le _ _) (by simp [ledgerDemo])
  obtain ⟨_, hnodup, _, hc, _⟩ :=
    run_crawl_ledger_spec envDemo shaDemo "t1" filesDemo ledgerDemo hinv
  exact ⟨hnodup, hc "http://a"⟩

/-- C2: a URL whose three attempts (retries = 2) all fail — by raising or
by returning empty content — yields exactly one terminal record with
`ok = false` carrying the last error reason, after exactly 3 attempts, the
second and third attempt each preceded by a backoff delay of
`min(2 ** attempt, 5)` seconds; and a run still appends one record per
pending URL, so the failure aborts nothing else. -/
theorem fetch_one_fail_spec (env : String → ℕ → FetchOutcome)
    (sha : String → String) (t : String) (it : Item)
    (hfail : ∀ k : ℕ, k ≤ 2 → ∃ e, attemptResult (env it.url k) = .error e) :
    (fetch_one env sha t 2 it).record.ok = false
    ∧ (∀ e, attemptResult (env it.url 2) = .error e →
        (fetch_one env sha t 2 it).record.error = some e)
    ∧ (fetch_one env sha t 2 it).attempts = 3
    ∧ (fetch_one env sha t 2 it).delays = [min (2 ^ 1) 5, min (2 ^ 2) 5]
    ∧ (fetch_one env sha t 2 it).record.url = it.url
    ∧ (∀ files L, (run_crawl env sha t files L).length
        = L.length + (pendingOf (load_items files) L).length) := by
  obtain ⟨e0, h0⟩ := hfail 0 (by norm_num)
  obtain ⟨e1, h1⟩ := hfail 1 (by norm_num)
  obtain ⟨e2, h2⟩ := hfail 2 (by norm_num)
  have hloop : fetchLoop (fun k => attemptResult (env it.url k)) 0 3
      = (.error e2, 3, [min (2 ^ 1) 5, min (2 ^ 2) 5]) := by
    simp [fetchLoop, h0, h1, h2]
  refine ⟨?_, ?_, ?_, ?_, fetch_one_record_url env sha t 2 it, ?_⟩
  · simp [fetch_one, hloop]
  · intro e he
    have : e = e2 := Except.error.inj (he.symm.trans h2)
    subst this
    simp [fetch_one, hloop]
  · simp [fetch_one, hloop]
  · simp [fetch_one, hloop]
  · intro files L
    simp only [run_crawl]
    split
    · rename_i hempty
      rw [hempty]
      simp [pendingOf]
    · split
      · rename_i hpend
        rw [hpend]
        simp
      · simp [List.length_append, List.length_map]

/-- C2 witness: the theorem applied to the demo environment in which
`http://bad` times out on every attempt. -/
theorem fetch_one_fail_spec_witness :
    (fetch_one envDemo shaDemo "t1" 2 ⟨"http://bad", "B", "rss_data.jsonl"⟩).record.ok
      = false
    ∧ (fetch_one envDemo shaDemo "t1" 2 ⟨"http://bad", "B", "rss_data.jsonl"⟩).attempts
      = 3
    ∧ (fetch_one envDemo shaDemo "t1" 2 ⟨"http://bad", "B", "rss_data.jsonl"⟩).delays
      = [min (2 ^ 1) 5, min (2 ^ 2) 5] := by
  obtain ⟨hok, _, hatt, hdel, _, _⟩ :=
    fetch_one_fail_spec envDemo shaDemo "t1" ⟨"http://bad", "B", "rss_data.jsonl"⟩
      (fun k _ => ⟨"TimeoutError: attempt " ++ toString k, rfl⟩)
  exact ⟨hok, hatt, hdel⟩

/-! ## C5 / C6: canonicalization

Character-level facts about ASCII lower-casing. -/

lemma toNat_ofNat_small (n : ℕ) (h : n < 0xd800) : (Char.ofNat n).toNat = n := by
  rw [Char.ofNat, dif_pos (Or.inl h)]
  show (UInt32.ofNat' n _).toNat = n
  simp [UInt32.ofNat', UInt32.toNat]

lemma toNat_toLower (c : Char) :
    (Char.toLower c).toNat
      = if 65 ≤ c.toNat ∧ c.toNat ≤ 90 then c.toNat + 32 else c.toNat := by
  rw [Char.toLower]
  split
  · exact toNat_ofNat_small _ (by omega)
  · rfl

lemma char_eq_iff_toNat {c d : Char} : c = d ↔ c.toNat = d.toNat := by
  constructor
  · rintro rfl
    rfl
  · intro h
    exact Char.ext (UInt32.ext h)

lemma isUpper_iff_toNat (c : Char) :
    c.isUpper = true ↔ 65 ≤ c.toNat ∧ c.toNat ≤ 90 := by
  simp only [Char.isUpper, Bool.and_eq_true, decide_eq_true_eq]
  exact Iff.rfl

lemma isLower_iff_toNat (c : Char) :
    c.isLower = true ↔ 97 ≤ c.toNat ∧ c.toNat ≤ 122 := by
  simp only [Char.isLower, Bool.and_eq_true, decide_eq_true_eq]
  exact Iff.rfl

lemma isAlpha_iff_toNat (c : Char) :
    c.isAlpha = true ↔ (65 ≤ c.toNat ∧ c.toNat ≤ 90) ∨ (97 ≤ c.toNat ∧ c.toNat ≤ 122) := by
  simp only [Char.isAlpha, Bool.or_eq_true, isUpper_iff_toNat, isLower_iff_toNat]

lemma isDigit_iff_toNat (c : Char) :
    c.isDigit = true ↔ 48 ≤ c.toNat ∧ c.toNat ≤ 57 := by
  simp only [Char.isDigit, Bool.and_eq_true, decide_eq_true_eq]
  exact Iff.rfl

lemma toLower_toLower (c : Char) :
    Char.toLower (Char.toLower c) = Char.toLower c := by
  rw [char_eq_iff_toNat, toNat_toLower, toNat_toLower]
  split_ifs <;> omega

lemma toLower_eq_iff_nonletter {d : Char}
    (hd1 : ¬ (65 ≤ d.toNat ∧ d.toNat ≤ 90)) (hd2 : ¬ (97 ≤ d.toNat ∧ d.toNat ≤ 122))
    (c : Char) : Char.toLower c = d ↔ c = d := by
  rw [char_eq_iff_toNat, char_eq_iff_toNat, toNat_toLower]
  split <;> omega

lemma isAlpha_toLower (c : Char) : (Char.toLower c).isAlpha = c.isAlpha := by
  rw [Bool.eq_iff_iff, isAlpha_iff_toNat, isAlpha_iff_toNat, toNat_toLower]
  split <;> omega

lemma isAsciiChar_toLower (c : Char) :
    isAsciiChar (Char.toLower c) = isAsciiChar c := by
  simp only [isAsciiChar]
  rw [Bool.eq_iff_iff, decide_eq_true_eq, decide_eq_true_eq, toNat_toLower]
  split <;> omega

lemma beq_toLower_nonletter {d : Char}
    (hd1 : ¬ (65 ≤ d.toNat ∧ d.toNat ≤ 90)) (hd2 : ¬ (97 ≤ d.toNat ∧ d.toNat ≤ 122))
    (c : Char) : (Char.toLower c == d) = (c == d) := by
  rw [Bool.eq_iff_iff, beq_iff_eq, beq_iff_eq]
  exact toLower_eq_iff_nonletter hd1 hd2 c

lemma isNetlocDelim_toLower (c : Char) :
    isNetlocDelim (Char.toLower c) = isNetlocDelim c := by
  simp only [isNetlocDelim]
  rw [beq_toLower_nonletter (by decide) (by decide),
    beq_toLower_nonletter (by decide) (by decide),
    beq_toLower_nonletter (by decide) (by decide)]

lemma isUnsafeURLChar_toLower (c : Char) :
    isUnsafeURLChar (Char.toLower c) = isUnsafeURLChar c := by
  simp only [isUnsafeURLChar]
  rw [beq_toLower_nonletter (by decide) (by decide),
    beq_toLower_nonletter (by decide) (by decide),
    beq_toLower_nonletter (by decide) (by decide)]

lemma isSchemeChar_iff_toNat (c : Char) : isSchemeChar c = true ↔
    (65 ≤ c.toNat ∧ c.toNat ≤ 90) ∨ (97 ≤ c.toNat ∧ c.toNat ≤ 122)
    ∨ (48 ≤ c.toNat ∧ c.toNat ≤ 57) ∨ c.toNat = 43 ∨ c.toNat = 45 ∨ c.toNat = 46 := by
  have h43 : ('+' : Char).toNat = 43 := rfl
  have h45 : ('-' : Char).toNat = 45 := rfl
  have h46 : ('.' : Char).toNat = 46 := rfl
  simp only [isSchemeChar, Bool.or_eq_true, isAlpha_iff_toNat, isDigit_iff_toNat,
    beq_iff_eq, char_eq_iff_toNat, h43, h45, h46]
  tauto

lemma isSchemeChar_toLower (c : Char) (h : isSchemeChar c = true) :
    isSchemeChar (Char.toLower c) = true := by
  rw [isSchemeChar_iff_toNat] at h ⊢
  rw [toNat_toLower]
  split <;> omega

lemma isSchemeChar_not_colon {c : Char} (h : isSchemeChar c = true) : c ≠ ':' := by
  rintro rfl
  exact absurd h (by decide)

/-! List-level helpers for the canonicalization proofs. -/

lemma takeWhile_append_all {p : α → Bool} :
    ∀ {l r : List α}, (∀ c ∈ l, p c = true) →
      (l ++ r).takeWhile p = l ++ r.takeWhile p
  | [], r, _ => rfl
  | a :: l, r, h => by
    simp only [List.cons_append, List.takeWhile_cons,
      h a (List.mem_cons_self a l), if_true]
    rw [takeWhile_append_all (fun c hc => h c (List.mem_cons_of_mem a hc))]

lemma dropWhile_append_all {p : α → Bool} :
    ∀ {l r : List α}, (∀ c ∈ l, p c = true) →
      (l ++ r).dropWhile p = r.dropWhile p
  | [], r, _ => rfl
  | a :: l, r, h => by
    simp only [List.cons_append, List.dropWhile_cons, h a (List.mem_cons_self a l)]
    exact dropWhile_append_all (fun c hc => h c (List.mem_cons_of_mem a hc))

lemma takeWhile_eq_self_of_all {p : α → Bool} :
    ∀ {l : List α}, (∀ c ∈ l, p c = true) → l.takeWhile p = l
  | [], _ => rfl
  | a :: l, h => by
    simp only [List.takeWhile_cons, h a (List.mem_cons_self a l), if_true]
    rw [takeWhile_eq_self_of_all (fun c hc => h c (List.mem_cons_of_mem a hc))]

lemma dropWhile_head_fails {p : α → Bool} :
    ∀ {l : List α} {c : α}, (l.dropWhile p).head? = some c → p c = false
  | [], c, h => by simp [List.dropWhile] at h
  | a :: l, c, h => by
    by_cases ha : p a
    · rw [List.dropWhile_cons, if_pos ha] at h
      exact dropWhile_head_fails h
    · rw [List.dropWhile_cons, if_neg ha] at h
      simp only [List.head?_cons, Option.some.injEq] at h
      subst h
      exact Bool.eq_false_iff.mpr ha

lemma dropWhile_eq_self_of_head {p : α → Bool} {l : List α}
    (h : ∀ c ∈ l.head?, p c = false) : l.dropWhile p = l := by
  match l with
  | [] => rfl
  | a :: l =>
    rw [List.dropWhile_cons, if_neg]
    simp only [List.head?_cons, Option.mem_def, Option.some.injEq] at h
    simp [h a rfl]

lemma findIdx?_start_append_first {p : α → Bool} :
    ∀ {l : List α} (r : List α) (x : α) (s : ℕ),
      (∀ c ∈ l, p c = false) → p x = true →
      List.findIdx? p (l ++ x :: r) s = some (s + l.length)
  | [], r, x, s, _, hx => by simp [List.findIdx?, hx]
  | a :: l, r, x, s, h, hx => by
    have ha := h a (List.mem_cons_self a l)
    simp only [List.cons_append, List.findIdx?, ha, Bool.false_eq_true,
      if_false, List.length_cons, List.append_eq]
    rw [findIdx?_start_append_first r x (s + 1)
      (fun c hc => h c (List.mem_cons_of_mem a hc)) hx]
    congr 1
    omega

lemma findIdx?_start_isPrefix {p : α → Bool} :
    ∀ {q : List α} (t : List α) {i s : ℕ},
      List.findIdx? p q s = some i → List.findIdx? p (q ++ t) s = some i
  | [], t, i, s, h => by simp [List.findIdx?] at h
  | a :: q, t, i, s, h => by
    simp only [List.findIdx?] at h ⊢
    by_cases ha : p a
    · rw [if_pos ha] at h ⊢
      exact h
    · rw [if_neg ha] at h ⊢
      show List.findIdx? p (q ++ t) (s + 1) = some i
      exact findIdx?_start_isPrefix t h

lemma findIdx?_start_bounds {p : α → Bool} :
    ∀ {l : List α} {i s : ℕ}, List.findIdx? p l s = some i →
      s ≤ i ∧ i < s + l.length
  | [], i, s, h => by simp [List.findIdx?] at h
  | a :: l, i, s, h => by
    simp only [List.findIdx?] at h
    by_cases ha : p a
    · rw [if_pos ha] at h
      simp only [Option.some.injEq] at h
      subst h
      simp only [List.length_cons]
      omega
    · rw [if_neg ha] at h
      have := findIdx?_start_bounds h
      simp only [List.length_cons]
      omega

lemma findIdx?_append_first {p : α → Bool} {l r : List α} {x : α}
    (h : ∀ c ∈ l, p c = false) (hx : p x = true) :
    (l ++ x :: r).findIdx? p = some l.length := by
  have := findIdx?_start_append_first (p := p) r x 0 h hx
  simpa using this

lemma findIdx?_isPrefix {p : α → Bool} {q u : List α} {i : ℕ}
    (hpre : q <+: u) (h : q.findIdx? p = some i) : u.findIdx? p = some i := by
  obtain ⟨t, rfl⟩ := hpre
  exact findIdx?_start_isPrefix t h

lemma findIdx?_lt_length {p : α → Bool} {l : List α} {i : ℕ}
    (h : l.findIdx? p = some i) : i < l.length := by
  have := findIdx?_start_bounds h
  omega

lemma getLast?_rstripSlash {p : List Char} {c : Char}
    (h : (rstripSlash p).getLast? = some c) : c ≠ '/' := by
  rw [rstripSlash, List.getLast?_reverse] at h
  have := dropWhile_head_fails h
  simp only [beq_eq_false_iff_ne, ne_eq] at this
  exact this

lemma rstripSlash_eq_self {l : List Char}
    (h : ∀ c, l.getLast? = some c → c ≠ '/') : rstripSlash l = l := by
  rw [rstripSlash, dropWhile_eq_self_of_head, List.reverse_reverse]
  intro c hc
  rw [← List.getLast?_reverse l.reverse, List.reverse_reverse] at hc
  simp only [Option.mem_def] at hc
  simp [h c hc]

lemma rstripSlash_rstripSlash (p : List Char) :
    rstripSlash (rstripSlash p) = rstripSlash p :=
  rstripSlash_eq_self (fun _ hc => getLast?_rstripSlash hc)

lemma rstripSlash_isPrefix (p : List Char) : rstripSlash p <+: p := by
  rw [rstripSlash]
  have h1 : p.reverse.dropWhile (fun c => c == '/') <:+ p.reverse :=
    List.dropWhile_suffix _
  have h2 := List.reverse_prefix.mpr h1
  simpa using h2

lemma mem_rstripSlash {p : List Char} {c : Char} (h : c ∈ rstripSlash p) :
    c ∈ p :=
  (rstripSlash_isPrefix p).sublist.mem h

/-! Shape lemmas for the embedded `urlsplit` components. -/

lemma splitScheme_of_findIdx_none {u : List Char}
    (hf : u.findIdx? (· = ':') = none) : splitScheme u = ([], u) := by
  simp [splitScheme, hf]

lemma splitScheme_of_findIdx_some {u : List Char} {i : ℕ}
    (hf : u.findIdx? (· = ':') = some i) :
    splitScheme u
      = if 0 < i ∧ (u.headD ' ').isAlpha ∧ (u.take i).all isSchemeChar then
          ((u.take i).map Char.toLower, u.drop (i + 1))
        else ([], u) := by
  simp [splitScheme, hf]

lemma splitScheme_scheme_prefix {s core : List Char} (hne : s ≠ [])
    (hall : s.all isSchemeChar = true) (hhead : (s.headD ' ').isAlpha = true)
    (hlow : s.map Char.toLower = s) :
    splitScheme (s ++ ':' :: core) = (s, core) := by
  have hnc : ∀ c ∈ s, (fun c => decide (c = ':')) c = false := by
    intro c hc
    simp only [decide_eq_false_iff_not]
    exact isSchemeChar_not_colon (List.all_eq_true.mp hall c hc)
  have hfind : (s ++ ':' :: core).findIdx? (· = ':') = some s.length :=
    findIdx?_append_first hnc (by simp)
  rw [splitScheme_of_findIdx_some hfind, if_pos, List.take_left, hlow]
  · congr 1
    rw [List.append_cons]
    have hl : s.length + 1 = (s ++ [':']).length := by simp
    rw [hl, List.drop_left]
  · refine ⟨List.length_pos.mpr hne, ?_, by rw [List.take_left]; exact hall⟩
    match s, hne with
    | a :: s', _ => simpa using hhead

lemma splitScheme_isPrefix_nil {q u : List Char} (hq : q <+: u)
    (h : splitScheme u = ([], u)) : splitScheme q = ([], q) := by
  match hfq : q.findIdx? (· = ':') with
  | none => exact splitScheme_of_findIdx_none hfq
  | some i =>
    have hfu : u.findIdx? (· = ':') = some i := findIdx?_isPrefix hq hfq
    have hbound : i < q.length := findIdx?_lt_length hfq
    rw [splitScheme_of_findIdx_some hfu] at h
    rw [splitScheme_of_findIdx_some hfq, if_neg]
    rintro ⟨h1, h2, h3⟩
    obtain ⟨t, rfl⟩ := hq
    have hqne : q ≠ [] := by
      intro h0
      rw [h0] at hbound
      simp at hbound
    have hheads : ((q ++ t).headD ' ') = (q.headD ' ') := by
      match q, hqne with
      | a :: q', _ => rfl
    have htakes : (q ++ t).take i = q.take i :=
      List.take_append_of_le_length (le_of_lt hbound)
    rw [if_pos ⟨h1, by rw [hheads]; exact h2, by rw [htakes]; exact h3⟩] at h
    have hnil : (q ++ t).take i = [] := by
      have := congrArg Prod.fst h
      simpa using this
    rw [htakes] at hnil
    have hlen := congrArg List.length hnil
    simp only [List.length_take, List.length_nil] at hlen
    omega

lemma splitScheme_nil_of_head_not_alpha {u : List Char}
    (h : (u.headD ' ').isAlpha = false) : splitScheme u = ([], u) := by
  match hf : u.findIdx? (· = ':') with
  | none => exact splitScheme_of_findIdx_none hf
  | some i =>
    rw [splitScheme_of_findIdx_some hf, if_neg]
    rintro ⟨_, h2, _⟩
    rw [h] at h2
    exact absurd h2 (by simp)

lemma splitNetloc_of_slashes (rest : List Char) :
    splitNetloc ('/' :: '/' :: rest)
      = (rest.takeWhile (fun c => !(isNetlocDelim c)),
         rest.dropWhile (fun c => !(isNetlocDelim c))) := by
  unfold splitNetloc
  rw [if_pos (by simp)]
  rfl

lemma splitNetloc_of_not_slashes {u : List Char} (h : u.take 2 ≠ ['/', '/']) :
    splitNetloc u = ([], u) := by
  unfold splitNetloc
  rw [if_neg h]

lemma netloc_split_exact {n q' : List Char}
    (hn : ∀ c ∈ n, isNetlocDelim c = false)
    (hq : ∀ c ∈ q'.head?, isNetlocDelim c = true) :
    (n ++ q').takeWhile (fun c => !(isNetlocDelim c)) = n
    ∧ (n ++ q').dropWhile (fun c => !(isNetlocDelim c)) = q' := by
  constructor
  · rw [takeWhile_append_all (fun c hc => by simp [hn c hc])]
    cases q' with
    | nil => simp
    | cons c q'' =>
      simp only [List.takeWhile_cons, hq c rfl, Bool.not_true,
        Bool.false_eq_true, if_false, List.append_nil]
  · rw [dropWhile_append_all (fun c hc => by simp [hn c hc])]
    exact dropWhile_eq_self_of_head (fun c hc => by simp [hq c hc])

lemma checkNetloc_ok_iff (O : NetOracles) (n : List Char) :
    checkNetloc O n = .ok () ↔
      ¬ (('[' ∈ n ∧ ']' ∉ n) ∨ (']' ∈ n ∧ '[' ∉ n))
      ∧ ¬ ('[' ∈ n ∧ ']' ∈ n ∧ ¬ O.bracketedHostOK (bracketedHost n) = true)
      ∧ ¬ ((¬ n.all isAsciiChar = true) ∧ ¬ O.nonAsciiNetlocOK n = true) := by
  unfold checkNetloc
  split_ifs with h1 h2 h3
  · exact iff_of_false (by simp) (fun h => h.1 h1)
  · exact iff_of_false (by simp) (fun h => h.2.1 h2)
  · exact iff_of_false (by simp) (fun h => h.2.2 h3)
  · exact iff_of_true rfl ⟨h1, h2, h3⟩

lemma mem_map_toLower_nonletter {d : Char}
    (hd1 : ¬ (65 ≤ d.toNat ∧ d.toNat ≤ 90)) (hd2 : ¬ (97 ≤ d.toNat ∧ d.toNat ≤ 122))
    (n : List Char) : d ∈ n.map Char.toLower ↔ d ∈ n := by
  simp only [List.mem_map]
  constructor
  · rintro ⟨c, hc, h⟩
    rwa [(toLower_eq_iff_nonletter hd1 hd2 c).mp h] at hc
  · intro h
    exact ⟨d, h, (toLower_eq_iff_nonletter hd1 hd2 d).mpr rfl⟩

lemma bne_toLower_nonletter {d : Char}
    (hd1 : ¬ (65 ≤ d.toNat ∧ d.toNat ≤ 90)) (hd2 : ¬ (97 ≤ d.toNat ∧ d.toNat ≤ 122))
    (c : Char) : (Char.toLower c != d) = (c != d) := by
  simp only [bne]
  rw [beq_toLower_nonletter hd1 hd2]

lemma bracketedHost_map_toLower (n : List Char) :
    bracketedHost (n.map Char.toLower) = (bracketedHost n).map Char.toLower := by
  unfold bracketedHost
  have hp1 : ((fun c => c != '[') ∘ Char.toLower) = (fun c => c != '[') := by
    funext c
    exact bne_toLower_nonletter (by decide) (by decide) c
  have hp2 : ((fun c => c != ']') ∘ Char.toLower) = (fun c => c != ']') := by
    funext c
    exact bne_toLower_nonletter (by decide) (by decide) c
  rw [List.dropWhile_map, hp1, ← List.map_drop, List.takeWhile_map, hp2]

lemma all_isAscii_map_toLower (n : List Char) :
    (n.map Char.toLower).all isAsciiChar = n.all isAsciiChar := by
  rw [List.all_map]
  congr 1
  funext c
  exact isAsciiChar_toLower c

lemma checkNetloc_toLower_ok {O : NetOracles} {n : List Char}
    (hbr : ∀ h, O.bracketedHostOK h = true →
      O.bracketedHostOK (h.map Char.toLower) = true)
    (hnf : ∀ m, O.nonAsciiNetlocOK m = true →
      O.nonAsciiNetlocOK (m.map Char.toLower) = true)
    (h : checkNetloc O n = .ok ()) :
    checkNetloc O (n.map Char.toLower) = .ok () := by
  rw [checkNetloc_ok_iff] at h ⊢
  obtain ⟨h1, h2, h3⟩ := h
  have hmb1 : '[' ∈ n.map Char.toLower ↔ '[' ∈ n :=
    mem_map_toLower_nonletter (by decide) (by decide) n
  have hmb2 : ']' ∈ n.map Char.toLower ↔ ']' ∈ n :=
    mem_map_toLower_nonletter (by decide) (by decide) n
  refine ⟨?_, ?_, ?_⟩
  · rw [not_or] at h1 ⊢
    constructor
    · intro hc
      exact h1.1 ⟨hmb1.mp hc.1, fun hm => hc.2 (hmb2.mpr hm)⟩
    · intro hc
      exact h1.2 ⟨hmb2.mp hc.1, fun hm => hc.2 (hmb1.mpr hm)⟩
  · rintro ⟨ha, hb, hc⟩
    rw [bracketedHost_map_toLower] at hc
    by_cases hok : O.bracketedHostOK (bracketedHost n) = true
    · exact hc (hbr _ hok)
    · exact h2 ⟨hmb1.mp ha, hmb2.mp hb, hok⟩
  · rintro ⟨ha, hb⟩
    rw [all_isAscii_map_toLower] at ha
    by_cases hok : O.nonAsciiNetlocOK n = true
    · exact hb (hnf _ hok)
    · exact h3 ⟨ha, hok⟩

lemma pyUrlparse_char (O : NetOracles) (url : List Char) (r : PySplit) :
    pyUrlparse O url = .ok r ↔
      checkNetloc O (parsedNetloc url) = .ok ()
      ∧ r = ⟨parsedScheme url, parsedNetloc url, parsedPath url⟩ := by
  unfold pyUrlparse parsedPath parsedPath0 parsedRest parsedScheme parsedNetloc
  cases h : checkNetloc O (splitNetloc (splitScheme (pyCleanUrl url)).2).1 with
  | error e =>
    simp only [h]
    constructor
    · intro hc
      exact Except.noConfusion hc
    · rintro ⟨hc, _⟩
      exact Except.noConfusion hc
  | ok u =>
    cases u
    simp only [h, Except.ok.injEq, true_and, eq_comm]

lemma canon_eq_of_parse {O : NetOracles} {url s n p : List Char}
    (h : pyUrlparse O url = .ok ⟨s, n, p⟩) :
    canon O url = .ok (pyUrlunparse3 s (n.map Char.toLower) (rstripSlash p)) := by
  unfold canon
  rw [h]

lemma splitScheme_fst_props (u : List Char) :
    (splitScheme u).1 = []
    ∨ ((splitScheme u).1 ≠ [] ∧ (splitScheme u).1.all isSchemeChar = true
        ∧ ((splitScheme u).1.headD ' ').isAlpha = true
        ∧ (splitScheme u).1.map Char.toLower = (splitScheme u).1) := by
  match hf : u.findIdx? (· = ':') with
  | none => rw [splitScheme_of_findIdx_none hf]; left; rfl
  | some i =>
    rw [splitScheme_of_findIdx_some hf]
    by_cases hc : 0 < i ∧ (u.headD ' ').isAlpha ∧ (u.take i).all isSchemeChar
    · rw [if_pos hc]
      obtain ⟨h1, h2, h3⟩ := hc
      have hbound : i < u.length := findIdx?_lt_length hf
      have hne : u.take i ≠ [] := by
        intro h0
        have := congrArg List.length h0
        simp only [List.length_take, List.length_nil] at this
        omega
      right
      refine ⟨by simpa using hne, ?_, ?_, ?_⟩
      · rw [List.all_map]
        rw [List.all_eq_true] at h3 ⊢
        intro c hc
        exact isSchemeChar_toLower c (h3 c hc)
      · match hu : u, i, h1 with
        | a :: u', i + 1, _ =>
          simp only [List.take_succ_cons, List.map_cons, List.headD_cons]
          rw [isAlpha_toLower]
          simpa using h2
      · rw [List.map_map]
        congr 1
        funext c
        exact toLower_toLower c
    · rw [if_neg hc]; left; rfl

lemma splitScheme_fst_nil {u : List Char} (h : (splitScheme u).1 = []) :
    splitScheme u = ([], u) := by
  match hf : u.findIdx? (· = ':') with
  | none => exact splitScheme_of_findIdx_none hf
  | some i =>
    rw [splitScheme_of_findIdx_some hf] at h ⊢
    by_cases hc : 0 < i ∧ (u.headD ' ').isAlpha ∧ (u.take i).all isSchemeChar
    · rw [if_pos hc] at h
      simp only [List.map_eq_nil_iff] at h
      have hbound : i < u.length := findIdx?_lt_length hf
      have := congrArg List.length h
      simp only [List.length_take, List.length_nil] at this
      omega
    · rw [if_neg hc]

lemma splitNetloc_fst_no_delim {w : List Char} :
    ∀ c ∈ (splitNetloc w).1, isNetlocDelim c = false := by
  unfold splitNetloc
  split
  · intro c hc
    have := List.mem_takeWhile_imp hc
    simpa using this
  · intro c hc
    simp at hc

lemma splitNetloc_mem_snd {w : List Char} {c : Char}
    (h : c ∈ (splitNetloc w).2) : c ∈ w := by
  unfold splitNetloc at h
  split at h
  · exact (List.mem_of_mem_drop ((List.dropWhile_sublist _).mem h))
  · exact h

lemma splitNetloc_mem_fst {w : List Char} {c : Char}
    (h : c ∈ (splitNetloc w).1) : c ∈ w := by
  unfold splitNetloc at h
  split at h
  · exact (List.mem_of_mem_drop ((List.takeWhile_sublist _).mem h))
  · simp at h

lemma splitScheme_mem_snd {u : List Char} {c : Char}
    (h : c ∈ (splitScheme u).2) : c ∈ u := by
  match hf : u.findIdx? (· = ':') with
  | none =>
    rw [splitScheme_of_findIdx_none hf] at h
    exact h
  | some i =>
    rw [splitScheme_of_findIdx_some hf] at h
    split at h
    · exact List.mem_of_mem_drop h
    · exact h

lemma mem_pyCleanUrl_not_unsafe {x : List Char} {c : Char}
    (h : c ∈ pyCleanUrl x) : isUnsafeURLChar c = false := by
  unfold pyCleanUrl at h
  have := (List.mem_filter.mp h).2
  simpa using this

lemma isUnsafe_iff_toNat (c : Char) :
    isUnsafeURLChar c = true ↔ c.toNat = 9 ∨ c.toNat = 13 ∨ c.toNat = 10 := by
  have h9 : ('\t' : Char).toNat = 9 := rfl
  have h13 : ('\r' : Char).toNat = 13 := rfl
  have h10 : ('\n' : Char).toNat = 10 := rfl
  simp only [isUnsafeURLChar, Bool.or_eq_true, beq_iff_eq, char_eq_iff_toNat,
    h9, h13, h10]
  tauto

lemma isC0OrSpace_iff_toNat (c : Char) :
    isC0OrSpace c = true ↔ c.toNat ≤ 32 := by
  simp [isC0OrSpace]

lemma isSchemeChar_not_unsafe {c : Char} (h : isSchemeChar c = true) :
    isUnsafeURLChar c = false := by
  rw [isSchemeChar_iff_toNat] at h
  rw [Bool.eq_false_iff, ne_eq, isUnsafe_iff_toNat]
  omega

lemma isAlpha_not_C0 {c : Char} (h : c.isAlpha = true) :
    isC0OrSpace c = false := by
  rw [isAlpha_iff_toNat] at h
  rw [Bool.eq_false_iff, ne_eq, isC0OrSpace_iff_toNat]
  omega

lemma unsafe_toLower_false {c : Char} (h : isUnsafeURLChar c = false) :
    isUnsafeURLChar (Char.toLower c) = false := by
  rw [isUnsafeURLChar_toLower]
  exact h

lemma head_pyCleanUrl {x : List Char} {c : Char}
    (h : (pyCleanUrl x).head? = some c) : isC0OrSpace c = false := by
  unfold pyCleanUrl at h
  match hd : x.dropWhile isC0OrSpace with
  | [] => rw [hd] at h; simp at h
  | a :: t =>
    have ha : isC0OrSpace a = false := by
      have := dropWhile_head_fails (p := isC0OrSpace) (l := x) (c := a)
        (by rw [hd]; rfl)
      exact this
    have hau : isUnsafeURLChar a = false := by
      rw [Bool.eq_false_iff, ne_eq, isUnsafe_iff_toNat]
      rw [Bool.eq_false_iff, ne_eq, isC0OrSpace_iff_toNat] at ha
      omega
    rw [hd, List.filter_cons, if_pos (by simp [hau])] at h
    simp only [List.head?_cons, Option.some.injEq] at h
    subst h
    exact ha

lemma pyCleanUrl_eq_self {v : List Char}
    (h1 : ∀ c ∈ v, isUnsafeURLChar c = false)
    (h2 : ∀ c, v.head? = some c → isC0OrSpace c = false) :
    pyCleanUrl v = v := by
  unfold pyCleanUrl
  rw [dropWhile_eq_self_of_head (fun c hc => h2 c hc)]
  exact List.filter_eq_self.mpr (fun c hc => by simp [h1 c hc])

lemma checkNetloc_nil_ok (O : NetOracles) : checkNetloc O [] = .ok () := by
  rw [checkNetloc_ok_iff]
  refine ⟨by simp, by simp, by simp⟩

/-- Scheme-component invariants produced by a parse. -/
def GoodScheme (s : List Char) : Prop :=
  s = [] ∨ (s ≠ [] ∧ s.all isSchemeChar = true
    ∧ (s.headD ' ').isAlpha = true ∧ s.map Char.toLower = s)

lemma reparse_netloc_case (O : NetOracles) (s n q' : List Char)
    (hs : GoodScheme s)
    (hnd : ∀ c ∈ n, isNetlocDelim c = false)
    (hnu : ∀ c ∈ n, isUnsafeURLChar c = false)
    (hchk : checkNetloc O n = .ok ())
    (hnl : n.map Char.toLower = n)
    (hq'head : q' = [] ∨ q'.headD ' ' = '/')
    (hq'chars : ∀ c ∈ q', c ≠ '#' ∧ c ≠ '?' ∧ c ≠ ';' ∧ isUnsafeURLChar c = false)
    (hq'last : ∀ c, q'.getLast? = some c → c ≠ '/')
    (hcond : n ≠ [] ∨ (s ≠ [] ∧ s ∈ usesNetloc ∧ q'.take 2 ≠ ['/', '/'])) :
    canon O (if s ≠ [] then s ++ ':' :: ('/' :: '/' :: (n ++ q'))
             else '/' :: '/' :: (n ++ q'))
      = .ok (if s ≠ [] then s ++ ':' :: ('/' :: '/' :: (n ++ q'))
             else '/' :: '/' :: (n ++ q')) := by
  have hq'headmem : ∀ c ∈ q'.head?, isNetlocDelim c = true := by
    intro c hc
    rcases hq'head with h | h
    · rw [h] at hc
      simp at hc
    · match q', hc with
      | a :: q'', hc =>
        simp only [List.head?_cons, Option.mem_def, Option.some.injEq] at hc
        subst hc
        simp only [List.headD_cons] at h
        subst h
        rfl
  have hcoreu : ∀ c ∈ '/' :: '/' :: (n ++ q'), isUnsafeURLChar c = false := by
    intro c hc
    rcases List.mem_cons.mp hc with rfl | hc
    · rfl
    · rcases List.mem_cons.mp hc with rfl | hc
      · rfl
      · rcases List.mem_append.mp hc with hc | hc
        · exact hnu c hc
        · exact (hq'chars c hc).2.2.2
  have hvu : ∀ c ∈ (if s ≠ [] then s ++ ':' :: ('/' :: '/' :: (n ++ q'))
      else '/' :: '/' :: (n ++ q')), isUnsafeURLChar c = false := by
    intro c hc
    split at hc
    · rcases List.mem_append.mp hc with hc | hc
      · rcases hs with rfl | ⟨_, hall, _, _⟩
        · simp at hc
        · exact isSchemeChar_not_unsafe (List.all_eq_true.mp hall c hc)
      · rcases List.mem_cons.mp hc with rfl | hc
        · rfl
        · exact hcoreu c hc
    · exact hcoreu c hc
  have hvhead : ∀ c, (if s ≠ [] then s ++ ':' :: ('/' :: '/' :: (n ++ q'))
      else '/' :: '/' :: (n ++ q')).head? = some c → isC0OrSpace c = false := by
    intro c hc
    split at hc
    · rename_i hsne
      rcases hs with rfl | ⟨_, _, hhead, _⟩
      · exact absurd rfl hsne
      · match s, hsne, hc, hhead with
        | a :: s', _, hc, hhead =>
          simp only [List.cons_append, List.head?_cons, Option.some.injEq] at hc
          subst hc
          exact isAlpha_not_C0 (by simpa using hhead)
    · simp only [List.head?_cons, Option.some.injEq] at hc
      subst hc
      rfl
  have hclean : pyCleanUrl (if s ≠ [] then s ++ ':' :: ('/' :: '/' :: (n ++ q'))
      else '/' :: '/' :: (n ++ q'))
      = (if s ≠ [] then s ++ ':' :: ('/' :: '/' :: (n ++ q'))
         else '/' :: '/' :: (n ++ q')) :=
    pyCleanUrl_eq_self hvu hvhead
  have hscheme : splitScheme (if s ≠ [] then s ++ ':' :: ('/' :: '/' :: (n ++ q'))
      else '/' :: '/' :: (n ++ q')) = (s, '/' :: '/' :: (n ++ q')) := by
    by_cases hsne : s ≠ []
    · rw [if_pos hsne]
      rcases hs with rfl | ⟨_, hall, hhead, hlow⟩
      · exact absurd rfl hsne
      · exact splitScheme_scheme_prefix hsne hall hhead hlow
    · rw [if_neg hsne]
      push_neg at hsne
      subst hsne
      exact splitScheme_nil_of_head_not_alpha (by simp)
  have hnetsplit : splitNetloc ('/' :: '/' :: (n ++ q')) = (n, q') := by
    rw [splitNetloc_of_slashes]
    obtain ⟨h1, h2⟩ := netloc_split_exact hnd hq'headmem
    rw [h1, h2]
  have hpath0 : (q'.takeWhile (fun c => c != '#')).takeWhile (fun c => c != '?')
      = q' := by
    have h1 : q'.takeWhile (fun c => c != '#') = q' :=
      takeWhile_eq_self_of_all (fun c hc => by simpa using (hq'chars c hc).1)
    rw [h1]
    exact takeWhile_eq_self_of_all (fun c hc => by simpa using (hq'chars c hc).2.1)
  have hparse : pyUrlparse O (if s ≠ [] then s ++ ':' :: ('/' :: '/' :: (n ++ q'))
      else '/' :: '/' :: (n ++ q')) = .ok ⟨s, n, q'⟩ := by
    rw [pyUrlparse_char]
    have hpn : parsedNetloc (if s ≠ [] then s ++ ':' :: ('/' :: '/' :: (n ++ q'))
        else '/' :: '/' :: (n ++ q')) = n := by
      unfold parsedNetloc
      rw [hclean, hscheme, hnetsplit]
    have hps : parsedScheme (if s ≠ [] then s ++ ':' :: ('/' :: '/' :: (n ++ q'))
        else '/' :: '/' :: (n ++ q')) = s := by
      unfold parsedScheme
      rw [hclean, hscheme]
    have hpr : parsedRest (if s ≠ [] then s ++ ':' :: ('/' :: '/' :: (n ++ q'))
        else '/' :: '/' :: (n ++ q')) = q' := by
      unfold parsedRest
      rw [hclean, hscheme, hnetsplit]
    have hpp0 : parsedPath0 (if s ≠ [] then s ++ ':' :: ('/' :: '/' :: (n ++ q'))
        else '/' :: '/' :: (n ++ q')) = q' := by
      unfold parsedPath0
      rw [hpr, hpath0]
    have hpp : parsedPath (if s ≠ [] then s ++ ':' :: ('/' :: '/' :: (n ++ q'))
        else '/' :: '/' :: (n ++ q')) = q' := by
      unfold parsedPath
      rw [hpp0, hps, if_neg]
      rintro ⟨_, hsemi⟩
      exact ((hq'chars ';' hsemi).2.2.1) rfl
    rw [hpn, hps, hpp]
    exact ⟨hchk, rfl⟩
  rw [canon_eq_of_parse hparse, hnl, rstripSlash_eq_self hq'last]
  unfold pyUrlunparse3
  rw [if_pos hcond]
  have hinner : (if q' ≠ [] ∧ q'.headD ' ' ≠ '/' then '/' :: q' else q') = q' := by
    rcases hq'head with h | h
    · rw [if_neg]
      rintro ⟨hne, _⟩
      exact hne h
    · rw [if_neg]
      rintro ⟨_, hne⟩
      exact hne h
  rw [hinner]

lemma reparse_plain_case (O : NetOracles) (s q : List Char)
    (hs : GoodScheme s)
    (hqchars : ∀ c ∈ q, c ≠ '#' ∧ c ≠ '?' ∧ c ≠ ';' ∧ isUnsafeURLChar c = false)
    (hqlast : ∀ c, q.getLast? = some c → c ≠ '/')
    (htake2 : q.take 2 ≠ ['/', '/'])
    (hnotnet : ¬ (s ≠ [] ∧ s ∈ usesNetloc))
    (hq5 : s = [] → splitScheme q = ([], q))
    (hqh0 : s = [] → ∀ c, q.head? = some c → isC0OrSpace c = false) :
    canon O (if s ≠ [] then s ++ ':' :: q else q)
      = .ok (if s ≠ [] then s ++ ':' :: q else q) := by
  have hvu : ∀ c ∈ (if s ≠ [] then s ++ ':' :: q else q),
      isUnsafeURLChar c = false := by
    intro c hc
    split at hc
    · rcases List.mem_append.mp hc with hc | hc
      · rcases hs with rfl | ⟨_, hall, _, _⟩
        · simp at hc
        · exact isSchemeChar_not_unsafe (List.all_eq_true.mp hall c hc)
      · rcases List.mem_cons.mp hc with rfl | hc
        · rfl
        · exact (hqchars c hc).2.2.2
    · exact (hqchars c hc).2.2.2
  have hvhead : ∀ c, (if s ≠ [] then s ++ ':' :: q else q).head? = some c →
      isC0OrSpace c = false := by
    intro c hc
    split at hc
    · rename_i hsne
      rcases hs with rfl | ⟨_, _, hhead, _⟩
      · exact absurd rfl hsne
      · match s, hsne, hc, hhead with
        | a :: s', _, hc, hhead =>
          simp only [List.cons_append, List.head?_cons, Option.some.injEq] at hc
          subst hc
          exact isAlpha_not_C0 (by simpa using hhead)
    · rename_i hsnil
      push_neg at hsnil
      exact hqh0 hsnil c hc
  have hclean : pyCleanUrl (if s ≠ [] then s ++ ':' :: q else q)
      = (if s ≠ [] then s ++ ':' :: q else q) :=
    pyCleanUrl_eq_self hvu hvhead
  have hscheme : splitScheme (if s ≠ [] then s ++ ':' :: q else q) = (s, q) := by
    by_cases hsne : s ≠ []
    · rw [if_pos hsne]
      rcases hs with rfl | ⟨_, hall, hhead, hlow⟩
      · exact absurd rfl hsne
      · exact splitScheme_scheme_prefix hsne hall hhead hlow
    · rw [if_neg hsne]
      push_neg at hsne
      subst hsne
      exact hq5 rfl
  have hpath0 : (q.takeWhile (fun c => c != '#')).takeWhile (fun c => c != '?')
      = q := by
    have h1 : q.takeWhile (fun c => c != '#') = q :=
      takeWhile_eq_self_of_all (fun c hc => by simpa using (hqchars c hc).1)
    rw [h1]
    exact takeWhile_eq_self_of_all (fun c hc => by simpa using (hqchars c hc).2.1)
  have hparse : pyUrlparse O (if s ≠ [] then s ++ ':' :: q else q)
      = .ok ⟨s, [], q⟩ := by
    rw [pyUrlparse_char]
    have hpn : parsedNetloc (if s ≠ [] then s ++ ':' :: q else q) = [] := by
      unfold parsedNetloc
      rw [hclean, hscheme, splitNetloc_of_not_slashes htake2]
    have hps : parsedScheme (if s ≠ [] then s ++ ':' :: q else q) = s := by
      unfold parsedScheme
      rw [hclean, hscheme]
    have hpr : parsedRest (if s ≠ [] then s ++ ':' :: q else q) = q := by
      unfold parsedRest
      rw [hclean, hscheme, splitNetloc_of_not_slashes htake2]
    have hpp0 : parsedPath0 (if s ≠ [] then s ++ ':' :: q else q) = q := by
      unfold parsedPath0
      rw [hpr, hpath0]
    have hpp : parsedPath (if s ≠ [] then s ++ ':' :: q else q) = q := by
      unfold parsedPath
      rw [hpp0, hps, if_neg]
      rintro ⟨_, hsemi⟩
      exact ((hqchars ';' hsemi).2.2.1) rfl
    rw [hpn, hps, hpp]
    exact ⟨checkNetloc_nil_ok O, rfl⟩
  rw [canon_eq_of_parse hparse, rstripSlash_eq_self hqlast]
  show Except.ok (pyUrlunparse3 s (List.map Char.toLower []) q) = _
  unfold pyUrlunparse3
  rw [List.map_nil]
  have hcondf : ¬(([] : List Char) ≠ []
      ∨ (s ≠ [] ∧ s ∈ usesNetloc ∧ q.take 2 ≠ ['/', '/'])) := by
    rintro (h | ⟨hsne, hmem, _⟩)
    · exact h rfl
    · exact hnotnet ⟨hsne, hmem⟩
  rw [if_neg hcondf]

lemma isPrefix_head {α : Type} {q l : List α} (h : q <+: l) :
    q = [] ∨ (∃ c, q.head? = some c ∧ l.head? = some c) := by
  match q with
  | [] => exact Or.inl rfl
  | a :: t =>
    obtain ⟨r, rfl⟩ := h
    exact Or.inr ⟨a, rfl, rfl⟩

lemma getLast?_cons_of_ne {α : Type} {a : α} {l : List α} (h : l ≠ []) :
    (a :: l).getLast? = l.getLast? := by
  match l with
  | [] => exact absurd rfl h
  | b :: t => exact List.getLast?_cons_cons

lemma splitParamsPath_isPrefix (p : List Char) : splitParamsPath p <+: p := by
  unfold splitParamsPath
  split
  · split
    · exact List.prefix_refl p
    · split
      · exact List.prefix_refl p
      · exact List.take_prefix _ p
  · exact List.takeWhile_prefix _

lemma mem_splitParamsPath {p : List Char} {c : Char}
    (h : c ∈ splitParamsPath p) : c ∈ p :=
  (splitParamsPath_isPrefix p).sublist.mem h

lemma isNetlocDelim_cases {d : Char} (h : isNetlocDelim d = true) :
    d = '/' ∨ d = '?' ∨ d = '#' := by
  have := by simpa [isNetlocDelim] using h
  tauto

lemma parsedPath_isPrefix_rest (url : List Char) :
    parsedPath url <+: parsedRest url := by
  have h0 : parsedPath0 url <+: parsedRest url := by
    unfold parsedPath0
    exact (List.takeWhile_prefix _).trans (List.takeWhile_prefix _)
  unfold parsedPath
  split
  · exact (splitParamsPath_isPrefix _).trans h0
  · exact h0

lemma headD_of_head? {α : Type} {l : List α} {c d : α} (h : l.head? = some c) :
    l.headD d = c := by
  match l, h with
  | a :: t, h =>
    simp only [List.head?_cons, Option.some.injEq] at h
    rw [List.headD_cons, h]

lemma canon_fixes (O : NetOracles) (s n q' : List Char)
    (hGS : GoodScheme s)
    (hnd : ∀ c ∈ n, isNetlocDelim c = false)
    (hnu : ∀ c ∈ n, isUnsafeURLChar c = false)
    (hnl : n.map Char.toLower = n)
    (hchk : checkNetloc O n = .ok ())
    (hqchars : ∀ c ∈ q', c ≠ '#' ∧ c ≠ '?' ∧ c ≠ ';' ∧ isUnsafeURLChar c = false)
    (hqlast : ∀ c, q'.getLast? = some c → c ≠ '/')
    (hcornerT : ¬ (n = [] ∧ q'.take 2 = ['/', '/']))
    (hD : s = [] → n = [] → splitScheme q' = ([], q')
        ∧ ∀ c, q'.head? = some c → isC0OrSpace c = false) :
    canon O (pyUrlunparse3 s n q') = .ok (pyUrlunparse3 s n q') := by
  by_cases hC : n ≠ [] ∨ (s ≠ [] ∧ s ∈ usesNetloc ∧ q'.take 2 ≠ ['/', '/'])
  · have hv : pyUrlunparse3 s n q'
        = (if s ≠ []
           then s ++ ':' :: ('/' :: '/' :: (n ++
             (if q' ≠ [] ∧ q'.headD ' ' ≠ '/' then '/' :: q' else q')))
           else '/' :: '/' :: (n ++
             (if q' ≠ [] ∧ q'.headD ' ' ≠ '/' then '/' :: q' else q'))) := by
      unfold pyUrlunparse3
      rw [if_pos hC]
    have hp2head : (if q' ≠ [] ∧ q'.headD ' ' ≠ '/' then '/' :: q' else q') = []
        ∨ (if q' ≠ [] ∧ q'.headD ' ' ≠ '/' then '/' :: q' else q').headD ' '
            = '/' := by
      split
      · exact Or.inr rfl
      · rename_i hcnd
        push_neg at hcnd
        by_cases hq0 : q' = []
        · exact Or.inl hq0
        · exact Or.inr (hcnd hq0)
    have hp2chars : ∀ c ∈ (if q' ≠ [] ∧ q'.headD ' ' ≠ '/' then '/' :: q' else q'),
        c ≠ '#' ∧ c ≠ '?' ∧ c ≠ ';' ∧ isUnsafeURLChar c = false := by
      intro c hc
      split at hc
      · rcases List.mem_cons.mp hc with rfl | hc
        · exact ⟨by decide, by decide, by decide, rfl⟩
        · exact hqchars c hc
      · exact hqchars c hc
    have hp2last : ∀ c,
        (if q' ≠ [] ∧ q'.headD ' ' ≠ '/' then '/' :: q' else q').getLast?
            = some c → c ≠ '/' := by
      intro c hc
      split at hc
      · rename_i hcnd
        rw [getLast?_cons_of_ne hcnd.1] at hc
        exact hqlast c hc
      · exact hqlast c hc
    have hcond2 : n ≠ [] ∨ (s ≠ [] ∧ s ∈ usesNetloc
        ∧ (if q' ≠ [] ∧ q'.headD ' ' ≠ '/' then '/' :: q' else q').take 2
            ≠ ['/', '/']) := by
      rcases hC with h | ⟨h1, h2, h3⟩
      · exact Or.inl h
      · refine Or.inr ⟨h1, h2, ?_⟩
        split
        · rename_i hcnd
          obtain ⟨hne, hhd⟩ := hcnd
          intro heq
          match q', hne, hhd, heq with
          | a :: t, _, hhd, heq =>
            simp only [List.take_succ_cons, List.take_zero, List.cons.injEq]
              at heq
            exact hhd (by simp [List.headD_cons, heq.2.1])
        · exact h3
    rw [hv]
    exact reparse_netloc_case O s n _ hGS hnd hnu hchk hnl hp2head hp2chars
      hp2last hcond2
  · push_neg at hC
    obtain ⟨hn0, hrest⟩ := hC
    have htake2 : q'.take 2 ≠ ['/', '/'] := fun h => hcornerT ⟨hn0, h⟩
    have hnotnet : ¬ (s ≠ [] ∧ s ∈ usesNetloc) :=
      fun h => htake2 (hrest h.1 h.2)
    have hv : pyUrlunparse3 s n q' = (if s ≠ [] then s ++ ':' :: q' else q') := by
      unfold pyUrlunparse3
      rw [hn0]
      have hcf : ¬ (([] : List Char) ≠ []
          ∨ (s ≠ [] ∧ s ∈ usesNetloc ∧ q'.take 2 ≠ ['/', '/'])) := by
        rintro (h | ⟨h1, h2, _⟩)
        · exact h rfl
        · exact hnotnet ⟨h1, h2⟩
      rw [if_neg hcf]
    rw [hv]
    exact reparse_plain_case O s q' hGS hqchars hqlast htake2 hnotnet
      (fun hs0 => (hD hs0 hn0).1) (fun hs0 => (hD hs0 hn0).2)

/-- C5 (amended): `canon` is idempotent on every URL whose parse succeeds,
provided the slash-stripped path contains no `;` and the parse does not hit
the corner of an empty netloc with a stripped path starting in `//`, and the
validation oracles are closed under lowercasing: the canonical form is a URL
that `canon` maps to itself. -/
theorem canon_idempotent_spec (O : NetOracles) (url : List Char) (u : PySplit)
    (hbr : ∀ h, O.bracketedHostOK h = true →
      O.bracketedHostOK (h.map Char.toLower) = true)
    (hnf : ∀ m, O.nonAsciiNetlocOK m = true →
      O.nonAsciiNetlocOK (m.map Char.toLower) = true)
    (hparse : pyUrlparse O url = .ok u)
    (hsemi : ';' ∉ rstripSlash u.path)
    (hcorner : ¬ (u.netloc = [] ∧ (rstripSlash u.path).take 2 = ['/', '/'])) :
    ∃ v, canon O url = .ok v ∧ canon O v = .ok v := by
  obtain ⟨hchk, hu⟩ := (pyUrlparse_char O url u).mp hparse
  subst hu
  have hsemi' : ';' ∉ rstripSlash (parsedPath url) := hsemi
  have hcorner' : ¬ (parsedNetloc url = []
      ∧ (rstripSlash (parsedPath url)).take 2 = ['/', '/']) := hcorner
  have hGS : GoodScheme (parsedScheme url) :=
    splitScheme_fst_props (pyCleanUrl url)
  have hnd0 : ∀ c ∈ parsedNetloc url, isNetlocDelim c = false :=
    fun c hc => splitNetloc_fst_no_delim c hc
  have hnu0 : ∀ c ∈ parsedNetloc url, isUnsafeURLChar c = false :=
    fun c hc =>
      mem_pyCleanUrl_not_unsafe (splitScheme_mem_snd (splitNetloc_mem_fst hc))
  have hnd' : ∀ c ∈ (parsedNetloc url).map Char.toLower,
      isNetlocDelim c = false := by
    intro c hc
    obtain ⟨a, ha, rfl⟩ := List.mem_map.mp hc
    rw [isNetlocDelim_toLower]
    exact hnd0 a ha
  have hnu' : ∀ c ∈ (parsedNetloc url).map Char.toLower,
      isUnsafeURLChar c = false := by
    intro c hc
    obtain ⟨a, ha, rfl⟩ := List.mem_map.mp hc
    exact unsafe_toLower_false (hnu0 a ha)
  have hnl' : ((parsedNetloc url).map Char.toLower).map Char.toLower
      = (parsedNetloc url).map Char.toLower := by
    rw [List.map_map]
    have hcomp : Char.toLower ∘ Char.toLower = Char.toLower :=
      funext toLower_toLower
    rw [hcomp]
  have hchk' : checkNetloc O ((parsedNetloc url).map Char.toLower) = .ok () :=
    checkNetloc_toLower_ok hbr hnf hchk
  have hqchars' : ∀ c ∈ rstripSlash (parsedPath url),
      c ≠ '#' ∧ c ≠ '?' ∧ c ≠ ';' ∧ isUnsafeURLChar c = false := by
    intro c hc
    have hcp : c ∈ parsedPath url := mem_rstripSlash hc
    have hc0 : c ∈ parsedPath0 url := by
      revert hcp
      unfold parsedPath
      split
      · exact fun hcp => mem_splitParamsPath hcp
      · exact id
    have hc0w : c ∈ ((parsedRest url).takeWhile (fun c => c != '#')).takeWhile
        (fun c => c != '?') := hc0
    have hqne := List.mem_takeWhile_imp hc0w
    have hc1 : c ∈ (parsedRest url).takeWhile (fun c => c != '#') :=
      (List.takeWhile_sublist _).mem hc0w
    have hhne := List.mem_takeWhile_imp hc1
    have hcr : c ∈ parsedRest url := (List.takeWhile_sublist _).mem hc1
    have hcu : isUnsafeURLChar c = false :=
      mem_pyCleanUrl_not_unsafe (splitScheme_mem_snd (splitNetloc_mem_snd hcr))
    exact ⟨by simpa using hhne, by simpa using hqne,
      fun hcs => hsemi' (hcs ▸ hc), hcu⟩
  have hqlast' : ∀ c, (rstripSlash (parsedPath url)).getLast? = some c →
      c ≠ '/' := fun _ h => getLast?_rstripSlash h
  have hcornerT : ¬ ((parsedNetloc url).map Char.toLower = []
      ∧ (rstripSlash (parsedPath url)).take 2 = ['/', '/']) :=
    fun h => hcorner' ⟨List.map_eq_nil_iff.mp h.1, h.2⟩
  have hD : parsedScheme url = [] →
      (parsedNetloc url).map Char.toLower = [] →
      splitScheme (rstripSlash (parsedPath url))
          = ([], rstripSlash (parsedPath url))
      ∧ ∀ c, (rstripSlash (parsedPath url)).head? = some c →
          isC0OrSpace c = false := by
    intro hs0 _
    have hclean_eq : splitScheme (pyCleanUrl url) = ([], pyCleanUrl url) :=
      splitScheme_fst_nil hs0
    have hq'pre : rstripSlash (parsedPath url) <+: parsedRest url :=
      (rstripSlash_isPrefix _).trans (parsedPath_isPrefix_rest url)
    by_cases hcl2 : (pyCleanUrl url).take 2 = ['/', '/']
    · have hrest_eq : parsedRest url
          = ((pyCleanUrl url).drop 2).dropWhile (fun c => !(isNetlocDelim c)) := by
        unfold parsedRest
        rw [hclean_eq]
        unfold splitNetloc
        rw [if_pos hcl2]
      rcases isPrefix_head hq'pre with hq'0 | ⟨d, hd1, hd2⟩
      · rw [hq'0]
        refine ⟨splitScheme_nil_of_head_not_alpha (by decide), ?_⟩
        intro c hc
        simp at hc
      · have hdelim : isNetlocDelim d = true := by
          rw [hrest_eq] at hd2
          have := dropWhile_head_fails hd2
          simpa using this
        constructor
        · refine splitScheme_nil_of_head_not_alpha ?_
          rw [headD_of_head? hd1]
          rcases isNetlocDelim_cases hdelim with rfl | rfl | rfl <;> decide
        · intro c hc
          have hcd : c = d := by
            rw [hc] at hd1
            exact Option.some.inj hd1
          subst hcd
          rcases isNetlocDelim_cases hdelim with rfl | rfl | rfl <;> decide
    · have hrest_eq : parsedRest url = pyCleanUrl url := by
        unfold parsedRest
        rw [hclean_eq, splitNetloc_of_not_slashes hcl2]
      constructor
      · exact splitScheme_isPrefix_nil (hrest_eq ▸ hq'pre) hclean_eq
      · intro c hc
        rcases isPrefix_head (hrest_eq ▸ hq'pre) with hq'0 | ⟨d, hd1, hd2⟩
        · rw [hq'0] at hc
          simp at hc
        · have hcd : c = d := by
            rw [hc] at hd1
            exact Option.some.inj hd1
          subst hcd
          exact head_pyCleanUrl hd2
  exact ⟨_, canon_eq_of_parse hparse,
    canon_fixes O _ _ _ hGS hnd' hnu' hnl' hchk' hqchars' hqlast' hcornerT hD⟩

/-- C5 counterexample: `canon` is not idempotent. On `http://h/x;p/` the
trailing-slash strip exposes `;p` as params of the last path segment, so a
second pass removes it: `canon` gives `http://h/x;p`, and applied again gives
`http://h/x`. -/
theorem canon_not_idempotent_cex :
    canon oraclesDemo "http://h/x;p/".toList = .ok "http://h/x;p".toList
    ∧ canon oraclesDemo "http://h/x;p".toList = .ok "http://h/x".toList
    ∧ "http://h/x;p".toList ≠ "http://h/x".toList :=
  ⟨rfl, rfl, by decide⟩

/-- C5 witness: the amended idempotence theorem applied at the concrete URL
`http://Ex.com/a/`. -/
theorem canon_idempotent_spec_witness :
    ∃ v, canon oraclesDemo "http://Ex.com/a/".toList = .ok v
      ∧ canon oraclesDemo v = .ok v :=
  canon_idempotent_spec oraclesDemo "http://Ex.com/a/".toList
    ⟨"http".toList, "Ex.com".toList, "/a/".toList⟩
    (fun _ _ => rfl) (fun _ _ => rfl) rfl (by decide) (by decide)

lemma pyUrlparse_error_iff (O : NetOracles) (url : List Char) (e : List Char) :
    pyUrlparse O url = .error e ↔
      checkNetloc O (parsedNetloc url) = .error e := by
  unfold pyUrlparse parsedNetloc
  cases hchk : checkNetloc O (splitNetloc (splitScheme (pyCleanUrl url)).2).1 with
  | error e2 => simp [hchk]
  | ok u => simp [hchk]

lemma canon_error_iff (O : NetOracles) (url : List Char) (e : List Char) :
    canon O url = .error e ↔ pyUrlparse O url = .error e := by
  unfold canon
  cases hp : pyUrlparse O url with
  | error e2 => simp [hp]
  | ok u => simp [hp]

/-- C6 (amended): `canon` is total except for the netloc validation raises of
`urlsplit`/`_checknetloc`: it propagates exactly the `ValueError` raised when
the parsed netloc has mismatched square brackets, an invalid bracketed host,
or a rejected non-ASCII netloc, and on every other input it returns a
canonical form normally. -/
theorem canon_total_spec (O : NetOracles) (url : List Char) :
    (∀ e, canon O url = .error e ↔ checkNetloc O (parsedNetloc url) = .error e)
    ∧ (checkNetloc O (parsedNetloc url) = .ok () →
        ∃ v, canon O url = .ok v) := by
  constructor
  · intro e
    rw [canon_error_iff, pyUrlparse_error_iff]
  · intro hchk
    have hparse : pyUrlparse O url
        = .ok ⟨parsedScheme url, parsedNetloc url, parsedPath url⟩ :=
      (pyUrlparse_char O url _).mpr ⟨hchk, rfl⟩
    exact ⟨_, canon_eq_of_parse hparse⟩

/-- C6 witness: the raise characterization applied at `http://[`, whose
netloc fails the bracket balance check. -/
theorem canon_total_spec_witness :
    canon oraclesDemo "http://[".toList = .error "Invalid IPv6 URL".toList :=
  ((canon_total_spec oraclesDemo "http://[".toList).1
      "Invalid IPv6 URL".toList).mpr rfl

/-- C6 counterexample: `canon` is not a total function of the URL string —
on `http://[` the mismatched bracket makes `urlsplit` raise
`ValueError: Invalid IPv6 URL`, and the exception escapes `canon`. -/
theorem canon_raises_cex :
    canon oraclesDemo "http://[".toList = .error "Invalid IPv6 URL".toList :=
  rfl

end InfoMining
